import Mathlib

/-!
Verification of the NVTabular schema-fitting core.

This file gives a shallow embedding of `nvtabular/graph/graph.py`
(the wavefront schema-fitting orchestrator) and of
`nvtabular/inference/graph/ops/workflow.py` (the `WorkflowOp`
schema-compatibility check and export-time dtype reconciliation),
and proves the specified properties about them.

Collaborator classes that the two modules use but whose code is not part
of the embedded sources (`Schema`, `Node`, `iter_nodes`,
`_triton_datatype_to_dtype`, `_remove_columns`) are modelled from the
specification, as marked in their doc comments.

Mutable per-node schema state is embedded as an explicit state function
from node identifiers to optional (input_schema, output_schema) pairs;
nodes are identified by their index in the graph's node list.
-/

namespace NVT

/-! ## Data model -/

/-- Modelled from the spec: a column descriptor
`{dtype, tags: set of labels, properties: mapping}` (spec data model for
`Schema`; the `Schema` class itself is not among the embedded sources). -/
structure ColumnSchema where
  name : String
  dtype : String
  tags : List String
  properties : List (String × String)
deriving DecidableEq, Repr

/-- Modelled from the spec: `Schema` is a mapping of column name to column
descriptor, kept in insertion order with unique names. -/
structure Schema where
  columnSchemas : List ColumnSchema
deriving DecidableEq, Repr

/-- The empty schema, `Schema()`. -/
def Schema.empty : Schema := ⟨[]⟩

/-- The list of column names, `schema.column_names`. -/
def Schema.columnNames (s : Schema) : List String := s.columnSchemas.map (·.name)

/-- Look up the descriptor stored under a column name. -/
def Schema.find? (s : Schema) (nm : String) : Option ColumnSchema :=
  s.columnSchemas.find? (fun c => c.name == nm)

/-- Modelled from the spec: right-biased merge `a + b` of two schemas
(`Schema.__add__` is not among the embedded sources).  Result columns are
the union of both sides; on a name collision `b`'s descriptor wins while
the column keeps `a`'s position, matching Python dict-update semantics. -/
def Schema.merge (a b : Schema) : Schema :=
  ⟨(a.columnSchemas.map (fun c =>
      match b.columnSchemas.find? (fun c' => c'.name == c.name) with
      | some c' => c'
      | none => c))
    ++ b.columnSchemas.filter
        (fun c' => !(a.columnSchemas.any (fun c => c.name == c'.name)))⟩

/-- Modelled from the spec: `project(schema, names)` / `Schema.apply`
keeps only the requested names that exist; absent requested names are
silently dropped. -/
def Schema.apply (s : Schema) (selector : List String) : Schema :=
  ⟨s.columnSchemas.filter (fun c => c.name ∈ selector)⟩

/-- Modelled from the spec: schema equality compares the column sets
("validates that its offered input schema ... equals the graph's
input_schema exactly (by column set)"); `Schema.__eq__` is not among the
embedded sources. -/
def Schema.eqBySet (a b : Schema) : Bool :=
  a.columnSchemas.all (fun c => c ∈ b.columnSchemas)
    && b.columnSchemas.all (fun c => c ∈ a.columnSchemas)

/-- Node identifiers: indices into the graph's node list. -/
abbrev NodeId := Nat

/-- Modelled from the spec: the parts of a `Node` read by the
orchestrator — ordered data-parents, ordered dependency-only parents, the
schema-computation capability `compute_schemas` (deterministic, returns
the pair (input_schema, output_schema) it stores on the node), and the
declared input/output column names used by `Graph._input_columns`. -/
structure Node where
  parents : List NodeId
  dependencies : List NodeId
  computeSchemas : Schema → Schema × Schema
  inputCols : List String
  outputCols : List String

instance : Inhabited Node :=
  ⟨{ parents := [], dependencies := [], computeSchemas := fun s => (s, s),
     inputCols := [], outputCols := [] }⟩

/-- `node.parents_with_dependencies`: data-parents then dependency-only
parents. -/
def Node.parentsWithDependencies (n : Node) : List NodeId :=
  n.parents ++ n.dependencies

/-- `Graph.__init__`: the graph holds its node arena and the designated
output node. -/
structure Graph where
  nodes : List Node
  outputNode : NodeId

/-- Dereference a node identifier. -/
def Graph.node (g : Graph) (i : NodeId) : Node := g.nodes.getD i default

/-- Well-formedness: every parent/dependency edge of an existing node
points at an existing node, and the output node exists. -/
def Wf (g : Graph) : Prop :=
  (∀ i < g.nodes.length, ∀ j ∈ (g.node i).parentsWithDependencies,
    j < g.nodes.length) ∧ g.outputNode < g.nodes.length

instance (g : Graph) : Decidable (Wf g) := by unfold Wf; infer_instance

/-- Acyclicity of the parent/dependency edges, witnessed by a rank
function that strictly decreases along every edge. -/
def Acyclic (g : Graph) : Prop :=
  ∃ rank : NodeId → Nat, ∀ i < g.nodes.length,
    ∀ j ∈ (g.node i).parentsWithDependencies, rank j < rank i

/-! ## Order-preserving de-duplication (`_get_unique`) -/

/-- Helper for `getUnique`: drop elements already seen. -/
def getUniqueAux {α : Type} [DecidableEq α] (seen : List α) : List α → List α
  | [] => []
  | x :: xs =>
    if x ∈ seen then getUniqueAux seen xs
    else x :: getUniqueAux (x :: seen) xs

/-- `_get_unique(cols)`: de-duplicate while preserving first-seen order
(`list({x: x for x in cols}.keys())`). -/
def getUnique {α : Type} [DecidableEq α] (l : List α) : List α :=
  getUniqueAux [] l

/-! ## Reachability (`iter_nodes`) -/

/-- One expansion step of the reachable-set computation: keep the current
nodes and add all their parents and dependencies. -/
def expandStep (g : Graph) (l : List NodeId) : List NodeId :=
  getUnique (l ++ l.flatMap (fun i => (g.node i).parentsWithDependencies))

/-- The expansion step iterated `k` times from a start list. -/
def iterExpand (g : Graph) (starts : List NodeId) (k : Nat) : List NodeId :=
  (expandStep g)^[k] (getUnique starts)

/-- The iterated expansion is closed at step `k`: every parent of a
member is already a member. -/
def ClosedAt (g : Graph) (starts : List NodeId) (k : Nat) : Prop :=
  ∀ i ∈ iterExpand g starts k, ∀ j ∈ (g.node i).parentsWithDependencies,
    j ∈ iterExpand g starts k

/-- Modelled from the spec: `iter_nodes(starts)` visits each node
reachable from `starts` (via data-parents or dependency-parents,
transitively) exactly once.  Computed as an iterated expansion, which
reaches a fixpoint within `g.nodes.length` steps for well-formed
graphs. -/
def reachFromList (g : Graph) (starts : List NodeId) : List NodeId :=
  iterExpand g starts g.nodes.length

/-- `iter_nodes([output_node])`: the nodes reachable from the graph's
output node. -/
def reachList (g : Graph) : List NodeId :=
  reachFromList g [g.outputNode]

/-- Reachability from a start node via parent/dependency edges. -/
inductive ReachFrom (g : Graph) : NodeId → NodeId → Prop where
  | refl (i : NodeId) : ReachFrom g i i
  | tail {i j k : NodeId} : ReachFrom g i j →
      k ∈ (g.node j).parentsWithDependencies → ReachFrom g i k

/-- A node is reachable when the output node reaches it. -/
def Reaches (g : Graph) (i : NodeId) : Prop := ReachFrom g g.outputNode i

/-- `j` is a strict ancestor of `i`: reachable from one of `i`'s parents
or dependencies. -/
def strictAnc (g : Graph) (j i : NodeId) : Prop :=
  ∃ p ∈ (g.node i).parentsWithDependencies, ReachFrom g p j

/-! ## Wavefront schema fitting (`Graph.fit_schema`) -/

/-- Per-node mutable schema state: `none` models both `input_schema` and
`output_schema` unset; `some (inS, outS)` models both set (they are set
together by `compute_schemas`). -/
abbrev FitState := NodeId → Option (Schema × Schema)

/-- Write one node's schema pair. -/
def setNode (st : FitState) (i : NodeId) (v : Schema × Schema) : FitState :=
  fun j => if j = i then some v else st j

/-- The output schemas of a node's data-parents, in parent-list order,
skipping parents whose schema is unset
(`[parent.output_schema for parent in node.parents if parent.output_schema]`). -/
def parentOutputSchemas (g : Graph) (st : FitState) (i : NodeId) : List Schema :=
  ((g.node i).parents.filterMap (fun p => st p)).map Prod.snd

/-- The schema handed to `node.compute_schemas`: `root_schema` itself for
a source node, otherwise `root_schema + sum(parent output schemas)`. -/
def combinedSchemaFor (g : Graph) (root : Schema) (st : FitState) (i : NodeId) :
    Schema :=
  if (g.node i).parents = [] then root
  else root.merge ((parentOutputSchemas g st i).foldl Schema.merge Schema.empty)

/-- Process one node of a phase: invoke its schema-computation capability
on the combined schema and store the result. -/
def processNode (g : Graph) (root : Schema) (st : FitState) (i : NodeId) :
    FitState :=
  setNode st i ((g.node i).computeSchemas (combinedSchemaFor g root st i))

/-- Process the nodes of one phase in order. -/
def processPhase (g : Graph) (root : Schema) (phase : List NodeId)
    (st : FitState) : FitState :=
  phase.foldl (processNode g root) st

/-- The pending bookkeeping: each still-schemaless node paired with its
blocking set (its still-schemaless ancestors). -/
abbrev Pending := List (NodeId × List NodeId)

/-- The current phase: pending nodes with an empty blocking set. -/
def phaseOf (pend : Pending) : List NodeId :=
  (pend.filter (fun e => e.2.isEmpty)).map Prod.fst

/-- Remove a processed phase from the pending set and from every
remaining blocking set. -/
def nextPending (pend : Pending) (phase : List NodeId) : Pending :=
  (pend.filter (fun e => decide (e.1 ∉ phase))).map
    (fun e => (e.1, e.2.filter (fun j => decide (j ∉ phase))))

/-- The invariant of the wavefront loop's bookkeeping: pending node
identifiers are distinct existing nodes; blocking sets stay inside the
pending set, contain only strict ancestors, and contain every pending
parent or dependency of their node. -/
structure LoopInv (g : Graph) (pend : Pending) : Prop where
  nodupFst : (pend.map Prod.fst).Nodup
  fstLt : ∀ e ∈ pend, e.1 < g.nodes.length
  blockSub : ∀ e ∈ pend, ∀ j ∈ e.2, j ∈ pend.map Prod.fst
  blockAnc : ∀ e ∈ pend, ∀ j ∈ e.2, strictAnc g j e.1
  parentBlock : ∀ e ∈ pend, ∀ p ∈ (g.node e.1).parentsWithDependencies,
    p ∈ pend.map Prod.fst → p ∈ e.2

/-- The fatal error of `fit_schema`: "failed to find dependency-free
Operator to compute schema for" (a `RuntimeError` in the source, the
`GraphConstructionError` of the spec). -/
inductive GraphError where
  | noProgress
deriving DecidableEq, Repr

/-- The wavefront loop of `fit_schema`, with an explicit fuel argument
(the recursion consumes at least one pending entry per iteration, so fuel
equal to the initial pending count is always sufficient; exhausted fuel
with a non-empty pending set reports the same fatal error, and is shown
unreachable).  Returns the final schema state and, as the trace, the
concatenation of the processed phases. -/
def fitLoopF (g : Graph) (root : Schema) :
    Nat → Pending → FitState → List NodeId →
      Except GraphError (FitState × List NodeId)
  | _, [], st, tr => .ok (st, tr)
  | 0, _ :: _, _, _ => .error .noProgress
  | fuel+1, e :: rest, st, tr =>
    let pend := e :: rest
    let phase := phaseOf pend
    if phase.isEmpty then .error .noProgress
    else
      fitLoopF g root fuel (nextPending pend phase)
        (processPhase g root phase st) (tr ++ phase)

/-- The initial pending map: every reachable schemaless node, paired with
the schemaless nodes reachable from its parents and dependencies
(`{node: _get_schemaless_nodes(node.parents_with_dependencies) for node
in _get_schemaless_nodes([self.output_node])}`). -/
def pendingInit (g : Graph) (st0 : FitState) : Pending :=
  ((reachList g).filter (fun i => (st0 i).isNone)).map
    (fun i => (i, (reachFromList g (g.node i).parentsWithDependencies).filter
      (fun j => (st0 j).isNone)))

/-- The de-duplicated output-column names of a node's parents and
dependencies combined. -/
def upstreamOutputNames (g : Graph) (i : NodeId) : List String :=
  getUnique ((g.node i).parentsWithDependencies.flatMap
    (fun j => (g.node j).outputCols))

/-- One node's contribution to `_input_columns`: its required input-column
names not produced upstream
(`list(set(node.input_columns.names) - set(upstream_output_cols))`). -/
def nodeExternalCols (g : Graph) (i : NodeId) : List String :=
  (getUnique (g.node i).inputCols).filter
    (fun nm => decide (nm ∉ upstreamOutputNames g i))

/-- `Graph._input_columns`: accumulate each reachable node's external
input-column names and de-duplicate preserving first-seen order. -/
def inputColumns (g : Graph) : List String :=
  getUnique ((reachList g).flatMap (nodeExternalCols g))

/-- The result of a successful `fit_schema`: the final per-node schema
state, the processing trace, and the graph-level input/output schemas. -/
structure FitOutcome where
  state : FitState
  trace : List NodeId
  inputSchema : Schema
  outputSchema : Option Schema

/-- `Graph.fit_schema(root_schema)`: run the wavefront loop, then set
`graph.input_schema` to the root-schema columns whose names are among
`_input_columns()`, and `graph.output_schema` to the output node's
output schema. -/
def fitSchema (g : Graph) (st0 : FitState) (root : Schema) :
    Except GraphError FitOutcome :=
  let pend := pendingInit g st0
  match fitLoopF g root pend.length pend st0 [] with
  | .error e => .error e
  | .ok (st, tr) =>
    .ok { state := st, trace := tr,
          inputSchema := ⟨root.columnSchemas.filter
            (fun c => decide (c.name ∈ inputColumns g))⟩,
          outputSchema := (st g.outputNode).map Prod.snd }

/-- `Graph._zero_output_schemas`: reset the schema state of every
reachable node. -/
def zeroOutputSchemas (g : Graph) (st : FitState) : FitState :=
  fun i => if i ∈ reachList g then none else st i

/-- The wavefront loop with a scheduler permuting the processing order
inside each phase (phase membership and bookkeeping are untouched). -/
def fitLoopFSched (sched : List NodeId → List NodeId) (g : Graph)
    (root : Schema) :
    Nat → Pending → FitState → List NodeId →
      Except GraphError (FitState × List NodeId)
  | _, [], st, tr => .ok (st, tr)
  | 0, _ :: _, _, _ => .error .noProgress
  | fuel+1, e :: rest, st, tr =>
    let pend := e :: rest
    let phase := phaseOf pend
    if phase.isEmpty then .error .noProgress
    else
      fitLoopFSched sched g root fuel (nextPending pend phase)
        (processPhase g root (sched phase) st) (tr ++ sched phase)

/-- `fit_schema` with the in-phase processing order chosen by a
scheduler. -/
def fitSchemaSched (sched : List NodeId → List NodeId) (g : Graph)
    (st0 : FitState) (root : Schema) : Except GraphError FitOutcome :=
  let pend := pendingInit g st0
  match fitLoopFSched sched g root pend.length pend st0 [] with
  | .error e => .error e
  | .ok (st, tr) =>
    .ok { state := st, trace := tr,
          inputSchema := ⟨root.columnSchemas.filter
            (fun c => decide (c.name ∈ inputColumns g))⟩,
          outputSchema := (st g.outputNode).map Prod.snd }

/-- The output descriptor for a name contributed by the last data-parent
(in parent-list order, skipping unset parents) that produces it: walking
the parents in order, a later producer overrides an earlier one. -/
def lastParentOutput (g : Graph) (st : FitState) (i : NodeId) (nm : String) :
    Option ColumnSchema :=
  (parentOutputSchemas g st i).foldl
    (fun acc s => match s.find? nm with | some c => some c | none => acc) none

/-- Spec-side notion: a column name is externally required when some
reachable node consumes it and none of that node's parents or
dependencies produces it. -/
def externallyRequired (g : Graph) (nm : String) : Prop :=
  ∃ i, Reaches g i ∧ nm ∈ (g.node i).inputCols ∧
    ∀ j ∈ (g.node i).parentsWithDependencies, nm ∉ (g.node j).outputCols

/-- A parent cycle among nodes with unset schema: a non-empty collection
of reachable schemaless nodes, each having a parent or dependency inside
the collection. -/
def hasUnsetParentCycle (g : Graph) (st0 : FitState) : Prop :=
  ∃ C : List NodeId, C ≠ [] ∧ ∀ i ∈ C, Reaches g i ∧ st0 i = none ∧
    ∃ p ∈ (g.node i).parentsWithDependencies, p ∈ C

/-- The outcome of a successful fit, with a fixed fallback (used only to
state concrete evaluations). -/
def fitOutcomeOf (g : Graph) (st0 : FitState) (root : Schema) : FitOutcome :=
  match fitSchema g st0 root with
  | .ok o => o
  | .error _ => { state := fun _ => none, trace := [],
                  inputSchema := Schema.empty, outputSchema := none }

/-! ## The workflow operator (`nvtabular/inference/graph/ops/workflow.py`) -/

/-- The parts of a fitted `Workflow` that `WorkflowOp` reads: the fitted
graph's input schema, the workflow's output schema, and the output dtype
mapping (column name to dtype). -/
structure Workflow where
  graphInputSchema : Schema
  outputSchema : Schema
  outputDtypes : List (String × String)

/-- `WorkflowOp.__init__`: the fields used by the embedded methods. -/
structure WorkflowOp where
  workflow : Workflow
  labelColumns : List String

/-- Error payload of the schema-compatibility check: the request schema's
column names and the workflow input schema's column names, as reported in
the raised `ValueError`'s message. -/
structure SchemaMismatch where
  requestColumns : List String
  workflowColumns : List String
deriving DecidableEq, Repr

/-- `WorkflowOp.compute_output_schema`: project the request schema onto
the selector, compare with the fitted graph's input schema, and either
raise (reporting both column-name lists) or return the workflow's output
schema. -/
def computeOutputSchema (op : WorkflowOp) (inputSchema : Schema)
    (colSelector : List String) : Except SchemaMismatch Schema :=
  let expectedInput := inputSchema.apply colSelector
  if Schema.eqBySet expectedInput op.workflow.graphInputSchema then
    .ok op.workflow.outputSchema
  else
    .error ⟨inputSchema.columnNames, op.workflow.graphInputSchema.columnNames⟩

/-- A consumer-config input column: a name and a Triton datatype tag. -/
structure ConsumerColumn where
  name : String
  dataType : String
deriving DecidableEq, Repr

/-- The part of the consumer config read by `WorkflowOp.export`. -/
structure ConsumerConfig where
  input : List ConsumerColumn
deriving DecidableEq, Repr

/-- Modelled from the spec: `_triton_datatype_to_dtype` translates a
consumer-declared Triton datatype tag into the dtype vocabulary used by
the workflow's output dtypes (the function is not among the embedded
sources; only its input/output role matters here). -/
def tritonDatatypeToDtype (t : String) : String :=
  match t with
  | "TYPE_FP32" => "float32"
  | "TYPE_FP64" => "float64"
  | "TYPE_INT32" => "int32"
  | "TYPE_INT64" => "int64"
  | "TYPE_BOOL" => "bool"
  | "TYPE_STRING" => "object"
  | other => other

/-- One emitted dtype-reconciliation warning, with the data interpolated
into the Python warning message. -/
structure ExportWarning where
  columnName : String
  tfDtype : String
  nvtDtype : String
deriving DecidableEq, Repr

/-- Dictionary lookup `dts.get(name)`. -/
def lookupD : List (String × String) → String → Option String
  | [], _ => none
  | p :: rest, nm => if p.1 = nm then some p.2 else lookupD rest nm

/-- Dictionary assignment `dts[name] = v` for a key already present:
replaces the stored value, keeping the key's position. -/
def updateD : List (String × String) → String → String → List (String × String)
  | [], _, _ => []
  | p :: rest, nm, v => (if p.1 = nm then (p.1, v) else p) :: updateD rest nm v

/-- The dtype-reconciliation loop of `WorkflowOp.export` (lines 69-78):
for each consumer input column, convert its declared datatype; if the
workflow produces a dtype for that column and it differs, warn and
override the workflow's output dtype for that column. -/
def reconcileDtypes (dts : List (String × String)) :
    List ConsumerColumn → List (String × String) × List ExportWarning
  | [] => (dts, [])
  | col :: rest =>
    let tfDtype := tritonDatatypeToDtype col.dataType
    match lookupD dts col.name with
    | some nvtDtype =>
      if nvtDtype ≠ tfDtype then
        let r := reconcileDtypes (updateD dts col.name tfDtype) rest
        (r.1, ⟨col.name, tfDtype, nvtDtype⟩ :: r.2)
      else reconcileDtypes dts rest
    | none => reconcileDtypes dts rest

/-- Modelled from the spec: `_remove_columns(workflow, label_columns)`
drops the label columns from the workflow before export (the helper is
not among the embedded sources); on the dtype mapping this removes the
label-column entries. -/
def removeColumnsD (dts : List (String × String)) (labels : List String) :
    List (String × String) :=
  dts.filter (fun p => p.1 ∉ labels)

/-- The dtype-relevant behaviour of `WorkflowOp.export`: remove the label
columns, then reconcile dtypes against the consumer config (when one is
given).  Returns the dtype mapping written into the generated
configuration together with the warnings emitted.  Export never fails on
a dtype mismatch: this function is total. -/
def exportReconcile (op : WorkflowOp) (consumerConfig : Option ConsumerConfig) :
    List (String × String) × List ExportWarning :=
  let dts := removeColumnsD op.workflow.outputDtypes op.labelColumns
  match consumerConfig with
  | none => (dts, [])
  | some cfg => reconcileDtypes dts cfg.input

/-! ## Concrete fixtures for witnesses -/

/-- An `int64` column descriptor. -/
def intCol (nm : String) : ColumnSchema := ⟨nm, "int64", [], []⟩

/-- A two-node chain: a source consuming raw column A and producing A and
doubled, feeding a sink that consumes doubled and raw column B. -/
def gChain : Graph :=
  { nodes :=
      [ { parents := [], dependencies := [],
          computeSchemas := fun s =>
            (s.apply ["A"], ⟨[intCol "A", intCol "doubled"]⟩),
          inputCols := ["A"], outputCols := ["A", "doubled"] },
        { parents := [0], dependencies := [],
          computeSchemas := fun s =>
            (s.apply ["doubled", "B"], ⟨[intCol "total"]⟩),
          inputCols := ["doubled", "B"], outputCols := ["total"] } ],
    outputNode := 1 }

/-- A root schema for the chain fixture: columns A, B and an unused C. -/
def rootChain : Schema := ⟨[intCol "A", intCol "B", intCol "C"]⟩

/-- A two-node parent cycle. -/
def gCycle : Graph :=
  { nodes :=
      [ { parents := [1], dependencies := [],
          computeSchemas := fun s => (s, s),
          inputCols := [], outputCols := [] },
        { parents := [0], dependencies := [],
          computeSchemas := fun s => (s, s),
          inputCols := [], outputCols := [] } ],
    outputNode := 0 }

/-- A state in which only node 0 has its schemas set. -/
def stOneFitted : FitState :=
  fun i => if i = 0 then some (Schema.empty, ⟨[intCol "x"]⟩) else none

/-- Spec Scenario C: two sources producing column x with different
dtypes, both feeding a sink node. -/
def gTwoParents : Graph :=
  { nodes :=
      [ { parents := [], dependencies := [],
          computeSchemas := fun _ => (Schema.empty, ⟨[⟨"x", "int64", [], []⟩]⟩),
          inputCols := [], outputCols := ["x"] },
        { parents := [], dependencies := [],
          computeSchemas := fun _ => (Schema.empty, ⟨[⟨"x", "float32", [], []⟩]⟩),
          inputCols := [], outputCols := ["x"] },
        { parents := [0, 1], dependencies := [],
          computeSchemas := fun s => (s, s),
          inputCols := ["x"], outputCols := ["x"] } ],
    outputNode := 2 }

/-- A state in which both sources of `gTwoParents` are fitted. -/
def stTwoFitted : FitState :=
  fun i =>
    if i = 0 then some (Schema.empty, ⟨[⟨"x", "int64", [], []⟩]⟩)
    else if i = 1 then some (Schema.empty, ⟨[⟨"x", "float32", [], []⟩]⟩)
    else none

/-- A root schema also declaring a raw column named x. -/
def rootX : Schema := ⟨[⟨"x", "object", [], []⟩]⟩

/-- A workflow operator fixture producing an int32 "age" column. -/
def opAge : WorkflowOp :=
  { workflow :=
      { graphInputSchema := ⟨[intCol "A"]⟩,
        outputSchema := ⟨[⟨"age", "int32", [], []⟩]⟩,
        outputDtypes := [("age", "int32")] },
    labelColumns := [] }

/-- A consumer config expecting float32 for "age" and also naming a
column the workflow does not produce. -/
def cfgAge : ConsumerConfig :=
  ⟨[⟨"age", "TYPE_FP32"⟩, ⟨"extra", "TYPE_INT64"⟩]⟩

/-! ## Schema lemmas -/

theorem Schema.eqBySet_iff (a b : Schema) :
    eqBySet a b = true ↔ ∀ c, c ∈ a.columnSchemas ↔ c ∈ b.columnSchemas := by
  simp only [eqBySet, Bool.and_eq_true, List.all_eq_true, decide_eq_true_eq]
  constructor
  · rintro ⟨h1, h2⟩ c
    exact ⟨fun hc => h1 c hc, fun hc => h2 c hc⟩
  · intro h
    exact ⟨fun c hc => (h c).1 hc, fun c hc => (h c).2 hc⟩

theorem Schema.mem_apply (s : Schema) (selector : List String) (c : ColumnSchema) :
    c ∈ (s.apply selector).columnSchemas ↔
      c ∈ s.columnSchemas ∧ c.name ∈ selector := by
  simp [apply]

/-! ## De-duplication lemmas -/

theorem mem_getUniqueAux {α : Type} [DecidableEq α] (l : List α) :
    ∀ (seen : List α) (a : α),
      a ∈ getUniqueAux seen l ↔ a ∈ l ∧ a ∉ seen := by
  induction l with
  | nil => intro seen a; simp [getUniqueAux]
  | cons x xs ih =>
    intro seen a
    by_cases hx : x ∈ seen
    · rw [getUniqueAux, if_pos hx, ih]
      constructor
      · rintro ⟨ha, hs⟩; exact ⟨List.mem_cons_of_mem x ha, hs⟩
      · rintro ⟨ha, hs⟩
        rcases List.mem_cons.mp ha with rfl | ha
        · exact absurd hx hs
        · exact ⟨ha, hs⟩
    · rw [getUniqueAux, if_neg hx]
      constructor
      · intro h
        rcases List.mem_cons.mp h with rfl | h
        · exact ⟨List.mem_cons_self a xs, hx⟩
        · obtain ⟨ha, hs⟩ := (ih (x :: seen) a).mp h
          exact ⟨List.mem_cons_of_mem x ha,
            fun hc => hs (List.mem_cons_of_mem x hc)⟩
      · rintro ⟨ha, hs⟩
        rcases List.mem_cons.mp ha with rfl | ha
        · exact List.mem_cons_self a _
        · by_cases hax : a = x
          · subst hax; exact List.mem_cons_self a _
          · exact List.mem_cons_of_mem x ((ih (x :: seen) a).mpr
              ⟨ha, fun hc => (List.mem_cons.mp hc).elim hax hs⟩)

theorem mem_getUnique {α : Type} [DecidableEq α] (l : List α) (a : α) :
    a ∈ getUnique l ↔ a ∈ l := by
  simp [getUnique, mem_getUniqueAux]

theorem nodup_getUniqueAux {α : Type} [DecidableEq α] (l : List α) :
    ∀ seen : List α, (getUniqueAux seen l).Nodup := by
  induction l with
  | nil => intro seen; simp [getUniqueAux]
  | cons x xs ih =>
    intro seen
    by_cases hx : x ∈ seen
    · rw [getUniqueAux, if_pos hx]; exact ih seen
    · rw [getUniqueAux, if_neg hx]
      refine List.nodup_cons.mpr ⟨?_, ih (x :: seen)⟩
      intro hc
      exact ((mem_getUniqueAux xs (x :: seen) x).mp hc).2 (List.mem_cons_self x seen)

theorem nodup_getUnique {α : Type} [DecidableEq α] (l : List α) :
    (getUnique l).Nodup := nodup_getUniqueAux l []

theorem getUniqueAux_sublist {α : Type} [DecidableEq α] (l : List α) :
    ∀ seen : List α, List.Sublist (getUniqueAux seen l) l := by
  induction l with
  | nil => intro seen; simp [getUniqueAux]
  | cons x xs ih =>
    intro seen
    by_cases hx : x ∈ seen
    · rw [getUniqueAux, if_pos hx]
      exact (ih seen).trans (List.sublist_cons_self x xs)
    · rw [getUniqueAux, if_neg hx]
      exact List.Sublist.cons₂ x (ih (x :: seen))

theorem getUnique_sublist {α : Type} [DecidableEq α] (l : List α) :
    List.Sublist (getUnique l) l := getUniqueAux_sublist l []

/-! ## Reachability lemmas -/

theorem mem_expandStep (g : Graph) (l : List NodeId) (j : NodeId) :
    j ∈ expandStep g l ↔
      j ∈ l ∨ ∃ i ∈ l, j ∈ (g.node i).parentsWithDependencies := by
  simp [expandStep, mem_getUnique]

theorem subset_expandStep (g : Graph) (l : List NodeId) :
    ∀ j ∈ l, j ∈ expandStep g l := fun j hj =>
  (mem_expandStep g l j).mpr (Or.inl hj)

theorem iterExpand_zero (g : Graph) (starts : List NodeId) :
    iterExpand g starts 0 = getUnique starts := rfl

theorem iterExpand_succ (g : Graph) (starts : List NodeId) (k : Nat) :
    iterExpand g starts (k+1) = expandStep g (iterExpand g starts k) :=
  Function.iterate_succ_apply' (expandStep g) k (getUnique starts)

theorem iterExpand_mono_succ (g : Graph) (starts : List NodeId) (k : Nat) :
    ∀ j ∈ iterExpand g starts k, j ∈ iterExpand g starts (k+1) := by
  intro j hj
  rw [iterExpand_succ]
  exact subset_expandStep g _ j hj

theorem iterExpand_mono (g : Graph) (starts : List NodeId) :
    ∀ k m, k ≤ m → ∀ j ∈ iterExpand g starts k, j ∈ iterExpand g starts m := by
  intro k m hkm
  induction m with
  | zero => rw [Nat.le_zero.mp hkm]; exact fun j h => h
  | succ m ihm =>
    rcases Nat.lt_or_ge k (m+1) with h | h
    · intro j hj
      exact iterExpand_mono_succ g starts m j (ihm (Nat.lt_succ_iff.mp h) j hj)
    · rw [Nat.le_antisymm hkm h]; exact fun j hj => hj

theorem nodup_iterExpand (g : Graph) (starts : List NodeId) (k : Nat) :
    (iterExpand g starts k).Nodup := by
  cases k with
  | zero => exact nodup_getUnique starts
  | succ k => rw [iterExpand_succ]; exact nodup_getUnique _

/-- Soundness: iterated expansion only finds reachable nodes. -/
theorem iterExpand_sound (g : Graph) (starts : List NodeId) :
    ∀ k, ∀ j ∈ iterExpand g starts k, ∃ s ∈ starts, ReachFrom g s j := by
  intro k
  induction k with
  | zero =>
    intro j hj
    exact ⟨j, (mem_getUnique starts j).mp hj, ReachFrom.refl j⟩
  | succ k ih =>
    intro j hj
    rw [iterExpand_succ] at hj
    rcases (mem_expandStep g _ j).mp hj with hj | ⟨i, hi, hedge⟩
    · exact ih j hj
    · obtain ⟨s, hs, hreach⟩ := ih i hi
      exact ⟨s, hs, ReachFrom.tail hreach hedge⟩

/-- Under well-formedness, the iterated expansion stays inside the node
arena. -/
theorem iterExpand_bounded (g : Graph) (starts : List NodeId)
    (hwf : Wf g) (hstarts : ∀ s ∈ starts, s < g.nodes.length) :
    ∀ k, ∀ j ∈ iterExpand g starts k, j < g.nodes.length := by
  intro k
  induction k with
  | zero =>
    intro j hj
    exact hstarts j ((mem_getUnique starts j).mp hj)
  | succ k ih =>
    intro j hj
    rw [iterExpand_succ] at hj
    rcases (mem_expandStep g _ j).mp hj with hj | ⟨i, hi, hedge⟩
    · exact ih j hj
    · exact hwf.1 i (ih i hi) j hedge

/-- Once closed, the iterated expansion is stable (as a set). -/
theorem closedAt_stable (g : Graph) (starts : List NodeId) (k : Nat)
    (hc : ClosedAt g starts k) :
    ∀ m, k ≤ m → ∀ j, j ∈ iterExpand g starts m ↔ j ∈ iterExpand g starts k := by
  intro m
  induction m with
  | zero =>
    intro hm j
    rw [Nat.le_zero.mp hm]
  | succ m ihm =>
    intro hm j
    rcases Nat.lt_or_ge k (m+1) with h | h
    · have hmk : k ≤ m := Nat.lt_succ_iff.mp h
      constructor
      · intro hj
        rw [iterExpand_succ] at hj
        rcases (mem_expandStep g _ j).mp hj with hj | ⟨i, hi, hedge⟩
        · exact (ihm hmk j).mp hj
        · exact hc i ((ihm hmk i).mp hi) j hedge
      · intro hj
        exact iterExpand_mono g starts k (m+1) (Nat.le_of_lt h) j hj
    · rw [Nat.le_antisymm hm h]

/-- Pigeonhole: within `g.nodes.length` steps the iterated expansion
reaches a closed set. -/
theorem exists_closedAt (g : Graph) (starts : List NodeId) (hwf : Wf g)
    (hstarts : ∀ s ∈ starts, s < g.nodes.length) :
    ∃ k ≤ g.nodes.length, ClosedAt g starts k := by
  by_contra hcon
  push_neg at hcon
  have key : ∀ k, (∀ j < k, ¬ClosedAt g starts j) →
      k ≤ (iterExpand g starts k).toFinset.card := by
    intro k
    induction k with
    | zero => intro _; exact Nat.zero_le _
    | succ k ih =>
      intro h
      have hk := ih (fun j hj => h j (Nat.lt_succ_of_lt hj))
      have hnc : ¬ClosedAt g starts k := h k (Nat.lt_succ_self k)
      unfold ClosedAt at hnc
      push_neg at hnc
      obtain ⟨i, hi, j, hj, hjn⟩ := hnc
      have hsub : (iterExpand g starts k).toFinset ⊆
          (iterExpand g starts (k+1)).toFinset := by
        intro a ha
        rw [List.mem_toFinset] at ha ⊢
        exact iterExpand_mono_succ g starts k a ha
      have hjmem : j ∈ (iterExpand g starts (k+1)).toFinset := by
        rw [List.mem_toFinset, iterExpand_succ]
        exact (mem_expandStep g _ j).mpr (Or.inr ⟨i, hi, hj⟩)
      have hss : (iterExpand g starts k).toFinset ⊂
          (iterExpand g starts (k+1)).toFinset :=
        Finset.ssubset_iff_of_subset hsub |>.mpr
          ⟨j, hjmem, by rw [List.mem_toFinset]; exact hjn⟩
      calc k + 1 ≤ (iterExpand g starts k).toFinset.card + 1 :=
              Nat.succ_le_succ hk
        _ ≤ (iterExpand g starts (k+1)).toFinset.card := Finset.card_lt_card hss
  have hbound : (iterExpand g starts (g.nodes.length+1)).toFinset.card
      ≤ g.nodes.length := by
    have hsub : (iterExpand g starts (g.nodes.length+1)).toFinset ⊆
        Finset.range g.nodes.length := by
      intro a ha
      rw [List.mem_toFinset] at ha
      rw [Finset.mem_range]
      exact iterExpand_bounded g starts hwf hstarts _ a ha
    simpa using Finset.card_le_card hsub
  have := key (g.nodes.length+1)
    (fun j hj => hcon j (Nat.lt_succ_iff.mp hj))
  omega

/-- Completeness: every node reachable from a start node appears in the
iterated expansion after `g.nodes.length` steps. -/
theorem reachFromList_complete (g : Graph) (starts : List NodeId)
    (hwf : Wf g) (hstarts : ∀ s ∈ starts, s < g.nodes.length)
    (s : NodeId) (hs : s ∈ starts) (t : NodeId) (hr : ReachFrom g s t) :
    t ∈ reachFromList g starts := by
  obtain ⟨k, hk, hclosed⟩ := exists_closedAt g starts hwf hstarts
  have hstable := closedAt_stable g starts k hclosed g.nodes.length hk
  have hmem : t ∈ iterExpand g starts k := by
    induction hr with
    | refl =>
      exact iterExpand_mono g starts 0 k (Nat.zero_le k) s
        ((mem_getUnique starts s).mpr hs)
    | tail hr hedge ih => exact hclosed _ ih _ hedge
  exact (hstable t).mpr hmem

/-- The traversal list contains exactly the reachable nodes. -/
theorem mem_reachFromList (g : Graph) (starts : List NodeId)
    (hwf : Wf g) (hstarts : ∀ s ∈ starts, s < g.nodes.length) (j : NodeId) :
    j ∈ reachFromList g starts ↔ ∃ s ∈ starts, ReachFrom g s j := by
  constructor
  · exact fun h => iterExpand_sound g starts g.nodes.length j h
  · rintro ⟨s, hs, hr⟩
    exact reachFromList_complete g starts hwf hstarts s hs j hr

/-- `reachList` contains exactly the nodes reachable from the output
node. -/
theorem mem_reachList (g : Graph) (hwf : Wf g) (j : NodeId) :
    j ∈ reachList g ↔ Reaches g j := by
  rw [reachList, mem_reachFromList g [g.outputNode] hwf
    (by intro s hs; rw [List.mem_singleton] at hs; rw [hs]; exact hwf.2)]
  constructor
  · rintro ⟨s, hs, hr⟩
    rw [List.mem_singleton] at hs
    rw [hs] at hr
    exact hr
  · intro h
    exact ⟨g.outputNode, List.mem_singleton_self _, h⟩

/-- Start nodes are members of their own traversal. -/
theorem self_mem_reachFromList (g : Graph) (starts : List NodeId)
    (s : NodeId) (hs : s ∈ starts) : s ∈ reachFromList g starts :=
  iterExpand_mono g starts 0 g.nodes.length (Nat.zero_le _) s
    ((mem_getUnique starts s).mpr hs)

/-- The traversal has no duplicates. -/
theorem nodup_reachFromList (g : Graph) (starts : List NodeId) :
    (reachFromList g starts).Nodup := nodup_iterExpand g starts _

/-- Reachable nodes of a well-formed graph stay inside the arena. -/
theorem reachFrom_lt (g : Graph) (hwf : Wf g) (s t : NodeId)
    (hs : s < g.nodes.length) (hr : ReachFrom g s t) : t < g.nodes.length := by
  induction hr with
  | refl => exact hs
  | tail hr hedge ih => exact hwf.1 _ ih _ hedge

/-- An acyclicity rank never increases along reachability. -/
theorem rank_le_of_reachFrom (g : Graph) (hwf : Wf g)
    (rank : NodeId → Nat)
    (hrank : ∀ i < g.nodes.length,
      ∀ j ∈ (g.node i).parentsWithDependencies, rank j < rank i)
    (s t : NodeId) (hs : s < g.nodes.length) (hr : ReachFrom g s t) :
    rank t ≤ rank s := by
  induction hr with
  | refl => exact Nat.le_refl _
  | tail hr hedge ih =>
    have hlt := hrank _ (reachFrom_lt g hwf _ _ hs hr) _ hedge
    omega

/-- `find?` ignores a filter that only drops non-matching elements. -/
theorem find?_filter_of_imp {α : Type} (l : List α) (p q : α → Bool)
    (h : ∀ x, p x = true → q x = true) :
    (l.filter q).find? p = l.find? p := by
  induction l with
  | nil => rfl
  | cons x xs ih =>
    cases hq : q x with
    | false =>
      have hp : p x = false := by
        cases hp : p x
        · rfl
        · rw [h x hp] at hq; exact Bool.noConfusion hq
      simp [List.filter_cons, hq, List.find?_cons, hp, ih]
    | true =>
      cases hp : p x with
      | false => simp [List.filter_cons, hq, List.find?_cons, hp, ih]
      | true => simp [List.filter_cons, hq, List.find?_cons, hp]

/-- A collision replacement keeps the column's name. -/
theorem merge_replacement_name (b : Schema) (c : ColumnSchema) :
    (match b.columnSchemas.find? (fun c' : ColumnSchema => c'.name == c.name) with
      | some c' => c'
      | none => c).name = c.name := by
  cases h : b.columnSchemas.find? (fun c' : ColumnSchema => c'.name == c.name) with
  | none => rfl
  | some c' => simpa using List.find?_some h

/-- The master merge lemma: looking a name up in `a.merge b` prefers
`b`'s descriptor and falls back to `a`'s (right-biased merge). -/
theorem Schema.find?_merge (a b : Schema) (nm : String) :
    (a.merge b).find? nm =
      match b.find? nm with
      | some c => some c
      | none => a.find? nm := by
  unfold Schema.merge Schema.find?
  rw [List.find?_append]
  have hpred : ((fun c : ColumnSchema => c.name == nm) ∘ (fun c : ColumnSchema =>
      match b.columnSchemas.find? (fun c' => c'.name == c.name) with
      | some c' => c'
      | none => c)) = (fun c : ColumnSchema => c.name == nm) := by
    funext c
    show ((match b.columnSchemas.find? (fun c' : ColumnSchema => c'.name == c.name) with
      | some c' => c'
      | none => c).name == nm) = (c.name == nm)
    rw [merge_replacement_name b c]
  rw [List.find?_map, hpred]
  cases ha : a.columnSchemas.find? (fun c => c.name == nm) with
  | some ca =>
    have hca : ca.name = nm := by simpa using List.find?_some ha
    cases hb : b.columnSchemas.find? (fun c => c.name == nm) with
    | some cb =>
      have : b.columnSchemas.find? (fun c' => c'.name == ca.name) = some cb := by
        rw [hca]; exact hb
      simp [this]
    | none =>
      have : b.columnSchemas.find? (fun c' => c'.name == ca.name) = none := by
        rw [hca]; exact hb
      simp [this]
  | none =>
    have hnone : ∀ c ∈ a.columnSchemas, ¬(c.name == nm) = true :=
      List.find?_eq_none.mp ha
    have hfilter : (b.columnSchemas.filter
        (fun c' => !(a.columnSchemas.any (fun c => c.name == c'.name)))).find?
          (fun c => c.name == nm)
        = b.columnSchemas.find? (fun c => c.name == nm) := by
      apply find?_filter_of_imp
      intro c' hc'
      have hc'nm : c'.name = nm := by simpa using hc'
      rw [Bool.not_eq_true']
      rw [List.any_eq_false]
      intro c hc
      rw [hc'nm]
      exact hnone c hc
    rw [hfilter]
    cases hb : b.columnSchemas.find? (fun c => c.name == nm) <;> simp

/-- Folding a right-biased merge over a list of schemas: a name resolves
to the descriptor of the last schema in the list that has it, falling
back to the seed schema. -/
theorem find?_foldl_merge (l : List Schema) :
    ∀ (e : Schema) (nm : String),
      ((l.foldl Schema.merge e).find? nm) =
        l.foldl (fun acc s =>
          match s.find? nm with | some c => some c | none => acc)
          (e.find? nm) := by
  induction l with
  | nil => intro e nm; rfl
  | cons s rest ih =>
    intro e nm
    show ((rest.foldl Schema.merge (e.merge s)).find? nm) = _
    rw [ih (e.merge s) nm, Schema.find?_merge e s nm]
    rfl

/-- The combined schema handed to a node resolves every name to the last
producing data-parent's descriptor, falling back to the root schema. -/
theorem combinedSchemaFor_find (g : Graph) (root : Schema) (st : FitState)
    (i : NodeId) (nm : String) :
    (combinedSchemaFor g root st i).find? nm =
      match lastParentOutput g st i nm with
      | some c => some c
      | none => root.find? nm := by
  unfold combinedSchemaFor
  by_cases hp : (g.node i).parents = []
  · rw [if_pos hp]
    unfold lastParentOutput parentOutputSchemas
    rw [hp]
    rfl
  · rw [if_neg hp, Schema.find?_merge, find?_foldl_merge]
    rfl

/-! ## Claim theorem: per-node schema computation (C3) -/

/-- C3: a node processed during fit has its schema-computation capability
invoked with root_schema itself when it has no data-parents, and
otherwise with the right-biased merge of its data-parents' output schemas
in parent-list order with root_schema merged underneath: a name produced
by some parent resolves to the last producing parent's descriptor (later
parent wins), and a root column of the same name never overrides it;
names produced by no parent resolve to the root schema. -/
theorem processNode_schema_semantics (g : Graph) (root : Schema)
    (st : FitState) (i : NodeId) :
    processNode g root st i
        = setNode st i ((g.node i).computeSchemas (combinedSchemaFor g root st i))
    ∧ ((g.node i).parents = [] → combinedSchemaFor g root st i = root)
    ∧ ∀ nm, (combinedSchemaFor g root st i).find? nm =
        match lastParentOutput g st i nm with
        | some c => some c
        | none => root.find? nm :=
  ⟨rfl, fun hp => by simp [combinedSchemaFor, hp],
    fun nm => combinedSchemaFor_find g root st i nm⟩

/-- Witness for C3 at spec Scenario C: the merged input for column x
takes the float32 descriptor of the later-listed parent, not the earlier
parent's int64 one and not the root schema's object one; and the source
node of the chain fixture is fed the root schema itself. -/
theorem processNode_schema_semantics_witness :
    ((gTwoParents.node 2).parents ≠ []
      ∧ (gChain.node 0).parents = [])
    ∧ (combinedSchemaFor gTwoParents rootX stTwoFitted 2).find? "x"
        = some ⟨"x", "float32", [], []⟩
    ∧ combinedSchemaFor gChain rootChain (fun _ => none) 0 = rootChain := by
  refine ⟨⟨by decide, by decide⟩, ?_, ?_⟩
  · rw [(processNode_schema_semantics gTwoParents rootX stTwoFitted 2).2.2 "x"]
    rfl
  · exact (processNode_schema_semantics gChain rootChain (fun _ => none) 0).2.1 rfl

/-! ## Lookup/update lemmas for the dtype dictionary -/

theorem lookupD_updateD_self (dts : List (String × String)) (nm v : String) :
    lookupD (updateD dts nm v) nm = (lookupD dts nm).map (fun _ => v) := by
  induction dts with
  | nil => rfl
  | cons p rest ih =>
    by_cases hp : p.1 = nm
    · simp [lookupD, updateD, hp]
    · simpa [lookupD, updateD, hp] using ih

theorem lookupD_updateD_ne (dts : List (String × String)) (nm v nm' : String)
    (h : nm' ≠ nm) : lookupD (updateD dts nm v) nm' = lookupD dts nm' := by
  induction dts with
  | nil => rfl
  | cons p rest ih =>
    by_cases hp : p.1 = nm
    · have hnm : nm ≠ nm' := fun hc => h hc.symm
      simpa [lookupD, updateD, hp, hnm] using ih
    · by_cases hq : p.1 = nm'
      · simp [lookupD, updateD, hp, hq, h]
      · simpa [lookupD, updateD, hp, hq] using ih

/-- A column the workflow does not produce is never touched: its lookup
stays `none` and no warning carries its name. -/
theorem reconcileDtypes_none (cols : List ConsumerColumn) :
    ∀ dts nm, lookupD dts nm = none →
      lookupD (reconcileDtypes dts cols).1 nm = none ∧
        ∀ w ∈ (reconcileDtypes dts cols).2, w.columnName ≠ nm := by
  induction cols with
  | nil => intro dts nm h; exact ⟨h, by simp [reconcileDtypes]⟩
  | cons col rest ih =>
    intro dts nm h
    cases hlook : lookupD dts col.name with
    | none => simpa [reconcileDtypes, hlook] using ih dts nm h
    | some nvt =>
      have hne : col.name ≠ nm := by
        intro hc; rw [hc, h] at hlook; exact Option.noConfusion hlook
      by_cases hd : nvt ≠ tritonDatatypeToDtype col.dataType
      · have h' : lookupD (updateD dts col.name (tritonDatatypeToDtype col.dataType)) nm = none := by
          rw [lookupD_updateD_ne dts col.name _ nm (fun hc => hne hc.symm)]; exact h
        have := ih (updateD dts col.name (tritonDatatypeToDtype col.dataType)) nm h'
        refine ⟨by simpa [reconcileDtypes, hlook, hd] using this.1, ?_⟩
        intro w hw
        simp only [reconcileDtypes, hlook, if_pos hd, List.mem_cons] at hw
        rcases hw with hw | hw
        · rw [hw]; exact hne
        · exact this.2 w hw
      · simpa [reconcileDtypes, hlook, hd] using ih dts nm h

/-- If no consumer column carries a name, the final dtype of that name is
the original one. -/
theorem reconcileDtypes_not_mentioned (cols : List ConsumerColumn) :
    ∀ dts nm, (∀ col ∈ cols, col.name ≠ nm) →
      lookupD (reconcileDtypes dts cols).1 nm = lookupD dts nm := by
  induction cols with
  | nil => intro dts nm _; rfl
  | cons col rest ih =>
    intro dts nm h
    have hcol : col.name ≠ nm := h col (by simp)
    have hrest : ∀ c ∈ rest, c.name ≠ nm := fun c hc => h c (by simp [hc])
    cases hlook : lookupD dts col.name with
    | none => simpa [reconcileDtypes, hlook] using ih dts nm hrest
    | some nvt =>
      by_cases hd : nvt ≠ tritonDatatypeToDtype col.dataType
      · have := ih (updateD dts col.name (tritonDatatypeToDtype col.dataType)) nm hrest
        rw [lookupD_updateD_ne dts col.name _ nm (fun hc => hcol hc.symm)] at this
        simpa [reconcileDtypes, hlook, hd] using this
      · simpa [reconcileDtypes, hlook, hd] using ih dts nm hrest

/-- Any change made by the reconciliation loop is accounted for by a
consumer column of that name whose converted dtype differed from the
produced one. -/
theorem reconcileDtypes_changed (cols : List ConsumerColumn) :
    ∀ dts nm, lookupD (reconcileDtypes dts cols).1 nm ≠ lookupD dts nm →
      ∃ c ∈ cols, c.name = nm ∧
        ∃ v, lookupD dts nm = some v ∧ v ≠ tritonDatatypeToDtype c.dataType := by
  induction cols with
  | nil => intro dts nm h; exact absurd rfl h
  | cons col rest ih =>
    intro dts nm h
    cases hlook : lookupD dts col.name with
    | none =>
      rw [show reconcileDtypes dts (col :: rest) = reconcileDtypes dts rest by
        simp [reconcileDtypes, hlook]] at h
      obtain ⟨c, hc, hcn, v, hv, hvne⟩ := ih dts nm h
      exact ⟨c, by simp [hc], hcn, v, hv, hvne⟩
    | some nvt =>
      by_cases hd : nvt ≠ tritonDatatypeToDtype col.dataType
      · by_cases hnm : col.name = nm
        · exact ⟨col, by simp, hnm, nvt, hnm ▸ hlook, hd⟩
        · have hfst : (reconcileDtypes dts (col :: rest)).1 =
              (reconcileDtypes (updateD dts col.name (tritonDatatypeToDtype col.dataType)) rest).1 := by
            simp [reconcileDtypes, hlook, hd]
          rw [hfst] at h
          have hsame : lookupD (updateD dts col.name (tritonDatatypeToDtype col.dataType)) nm
              = lookupD dts nm :=
            lookupD_updateD_ne dts col.name _ nm (fun hc => hnm hc.symm)
          obtain ⟨c, hc, hcn, v, hv, hvne⟩ := ih _ nm (by rw [hsame]; exact h)
          rw [hsame] at hv
          exact ⟨c, by simp [hc], hcn, v, hv, hvne⟩
      · rw [show reconcileDtypes dts (col :: rest) = reconcileDtypes dts rest by
          simp [reconcileDtypes, hlook, hd]] at h
        obtain ⟨c, hc, hcn, v, hv, hvne⟩ := ih dts nm h
        exact ⟨c, by simp [hc], hcn, v, hv, hvne⟩

/-- A mismatching consumer column gets its dtype overridden and a warning
emitted; with distinct consumer column names the override survives the
rest of the loop. -/
theorem reconcileDtypes_override (cols : List ConsumerColumn) :
    ∀ dts, (cols.map (·.name)).Nodup →
      ∀ col ∈ cols, ∀ nvt, lookupD dts col.name = some nvt →
        nvt ≠ tritonDatatypeToDtype col.dataType →
        lookupD (reconcileDtypes dts cols).1 col.name
            = some (tritonDatatypeToDtype col.dataType) ∧
          (⟨col.name, tritonDatatypeToDtype col.dataType, nvt⟩ : ExportWarning)
            ∈ (reconcileDtypes dts cols).2 := by
  induction cols with
  | nil => intro dts _ col hcol; simp at hcol
  | cons c rest ih =>
    intro dts hnd col hcol nvt hlook hne
    have hnd' : (rest.map (·.name)).Nodup := (List.nodup_cons.mp hnd).2
    rcases List.mem_cons.mp hcol with hc | hc
    · subst hc
      have hrest : ∀ c' ∈ rest, c'.name ≠ col.name := by
        intro c' hc' he
        exact (List.nodup_cons.mp hnd).1 (List.mem_map.mpr ⟨c', hc', he⟩)
      have hkeep := reconcileDtypes_not_mentioned rest
        (updateD dts col.name (tritonDatatypeToDtype col.dataType)) col.name hrest
      rw [lookupD_updateD_self, hlook] at hkeep
      refine ⟨?_, ?_⟩
      · simpa [reconcileDtypes, hlook, hne] using hkeep
      · simp [reconcileDtypes, hlook, hne]
    · have hcne : c.name ≠ col.name := by
        intro he
        exact (List.nodup_cons.mp hnd).1 (List.mem_map.mpr ⟨col, hc, he.symm⟩)
      cases hlc : lookupD dts c.name with
      | none =>
        have := ih dts hnd' col hc nvt hlook hne
        exact ⟨by simpa [reconcileDtypes, hlc] using this.1,
          by simpa [reconcileDtypes, hlc] using this.2⟩
      | some nvtc =>
        by_cases hd : nvtc ≠ tritonDatatypeToDtype c.dataType
        · have hlook' : lookupD (updateD dts c.name (tritonDatatypeToDtype c.dataType)) col.name
              = some nvt := by
            rw [lookupD_updateD_ne dts c.name _ col.name (fun h => hcne h.symm)]; exact hlook
          have := ih _ hnd' col hc nvt hlook' hne
          exact ⟨by simpa [reconcileDtypes, hlc, hd] using this.1,
            by simp [reconcileDtypes, hlc, hd]; right; exact this.2⟩
        · have := ih dts hnd' col hc nvt hlook hne
          exact ⟨by simpa [reconcileDtypes, hlc, hd] using this.1,
            by simpa [reconcileDtypes, hlc, hd] using this.2⟩

/-! ## Claim theorems: the workflow operator -/

/-- C8: `WorkflowOp.compute_output_schema` raises exactly when the
request schema projected onto the selector differs (as a column set) from
the fitted workflow graph's input schema; the raised error reports the
column names of both the request schema and the workflow's input schema;
on success it returns the workflow's output schema.  The operation is a
pure function of its inputs, so no fitted state is modified on either
path. -/
theorem workflowOp_schema_compat_check (op : WorkflowOp) (inputSchema : Schema)
    (sel : List String) :
    (∀ c, c ∈ (inputSchema.apply sel).columnSchemas ↔
        c ∈ inputSchema.columnSchemas ∧ c.name ∈ sel)
    ∧ match computeOutputSchema op inputSchema sel with
      | .ok r => r = op.workflow.outputSchema ∧
          (∀ c, c ∈ (inputSchema.apply sel).columnSchemas ↔
            c ∈ op.workflow.graphInputSchema.columnSchemas)
      | .error e => e.requestColumns = inputSchema.columnNames
          ∧ e.workflowColumns = op.workflow.graphInputSchema.columnNames
          ∧ ¬(∀ c, c ∈ (inputSchema.apply sel).columnSchemas ↔
              c ∈ op.workflow.graphInputSchema.columnSchemas) := by
  refine ⟨Schema.mem_apply inputSchema sel, ?_⟩
  cases heq : Schema.eqBySet (inputSchema.apply sel) op.workflow.graphInputSchema
  · have hres : computeOutputSchema op inputSchema sel =
        .error ⟨inputSchema.columnNames, op.workflow.graphInputSchema.columnNames⟩ := by
      simp [computeOutputSchema, heq]
    rw [hres]
    exact ⟨rfl, rfl, fun hiff => by
      rw [(Schema.eqBySet_iff _ _).mpr hiff] at heq
      exact Bool.noConfusion heq⟩
  · have hres : computeOutputSchema op inputSchema sel =
        .ok op.workflow.outputSchema := by
      simp [computeOutputSchema, heq]
    rw [hres]
    exact ⟨rfl, (Schema.eqBySet_iff _ _).mp heq⟩

/-- Witness for C8 at a concrete mismatching request. -/
theorem workflowOp_schema_compat_check_witness :
    match computeOutputSchema opAge (⟨[intCol "B"]⟩ : Schema) ["B"] with
    | .ok _ => False
    | .error e => e.requestColumns = ["B"] ∧ e.workflowColumns = ["A"] := by
  have h := workflowOp_schema_compat_check opAge (⟨[intCol "B"]⟩ : Schema) ["B"]
  have hres : computeOutputSchema opAge (⟨[intCol "B"]⟩ : Schema) ["B"]
      = .error ⟨["B"], ["A"]⟩ := rfl
  rw [hres] at h ⊢
  exact ⟨h.2.1, h.2.2.1⟩

/-- C9: a consumer-declared input column whose expected dtype differs
from the dtype the (label-stripped) workflow produces for that column
gets a warning emitted and the workflow's output dtype overridden to the
consumer's expected dtype in the exported configuration; the export-time
reconciliation is a total function, so a dtype mismatch alone never fails
the export. -/
theorem export_dtype_reconciliation (op : WorkflowOp) (cfg : ConsumerConfig)
    (hnd : (cfg.input.map (·.name)).Nodup)
    (col : ConsumerColumn) (hcol : col ∈ cfg.input) (nvt : String)
    (hl : lookupD (removeColumnsD op.workflow.outputDtypes op.labelColumns)
      col.name = some nvt)
    (hne : nvt ≠ tritonDatatypeToDtype col.dataType) :
    lookupD (exportReconcile op (some cfg)).1 col.name
        = some (tritonDatatypeToDtype col.dataType) ∧
      (⟨col.name, tritonDatatypeToDtype col.dataType, nvt⟩ : ExportWarning)
        ∈ (exportReconcile op (some cfg)).2 := by
  have h := reconcileDtypes_override cfg.input
    (removeColumnsD op.workflow.outputDtypes op.labelColumns) hnd col hcol nvt hl hne
  exact ⟨by simpa [exportReconcile] using h.1, by simpa [exportReconcile] using h.2⟩

/-- Witness for C9: int32 "age" against an expected float32, as in
spec Scenario D. -/
theorem export_dtype_reconciliation_witness :
    ((cfgAge.input.map (·.name)).Nodup
      ∧ (⟨"age", "TYPE_FP32"⟩ : ConsumerColumn) ∈ cfgAge.input
      ∧ lookupD (removeColumnsD opAge.workflow.outputDtypes opAge.labelColumns)
          "age" = some "int32"
      ∧ "int32" ≠ tritonDatatypeToDtype "TYPE_FP32")
    ∧ lookupD (exportReconcile opAge (some cfgAge)).1 "age" = some "float32"
    ∧ (⟨"age", "float32", "int32"⟩ : ExportWarning)
        ∈ (exportReconcile opAge (some cfgAge)).2 := by
  refine ⟨⟨by decide, by decide, by decide, by decide⟩, ?_⟩
  have h := export_dtype_reconciliation opAge cfgAge (by decide)
    ⟨"age", "TYPE_FP32"⟩ (by decide) "int32" (by decide) (by decide)
  exact h

/-- C10: a consumer-config input column whose name the workflow does not
produce is silently ignored by the reconciliation loop — its lookup stays
absent and no warning carries its name — and the loop changes only the
dtypes of columns both sides declare whose dtypes actually differ. -/
theorem export_ignores_unproduced_columns (op : WorkflowOp)
    (cfg : ConsumerConfig) (col : ConsumerColumn) (_hcol : col ∈ cfg.input)
    (h : lookupD (removeColumnsD op.workflow.outputDtypes op.labelColumns)
      col.name = none) :
    lookupD (exportReconcile op (some cfg)).1 col.name = none
    ∧ (∀ w ∈ (exportReconcile op (some cfg)).2, w.columnName ≠ col.name)
    ∧ (∀ nm, lookupD (exportReconcile op (some cfg)).1 nm ≠
          lookupD (removeColumnsD op.workflow.outputDtypes op.labelColumns) nm →
        ∃ c ∈ cfg.input, c.name = nm ∧
          ∃ v, lookupD (removeColumnsD op.workflow.outputDtypes op.labelColumns)
              nm = some v ∧ v ≠ tritonDatatypeToDtype c.dataType) := by
  have h1 := reconcileDtypes_none cfg.input
    (removeColumnsD op.workflow.outputDtypes op.labelColumns) col.name h
  refine ⟨by simpa [exportReconcile] using h1.1,
    by simpa [exportReconcile] using h1.2, ?_⟩
  intro nm hch
  exact reconcileDtypes_changed cfg.input _ nm (by simpa [exportReconcile] using hch)

/-- Witness for C10: the "extra" column of the consumer config is not
produced by the workflow and is ignored. -/
theorem export_ignores_unproduced_columns_witness :
    ((⟨"extra", "TYPE_INT64"⟩ : ConsumerColumn) ∈ cfgAge.input
      ∧ lookupD (removeColumnsD opAge.workflow.outputDtypes opAge.labelColumns)
          "extra" = none)
    ∧ lookupD (exportReconcile opAge (some cfgAge)).1 "extra" = none := by
  refine ⟨⟨by decide, by decide⟩, ?_⟩
  exact (export_ignores_unproduced_columns opAge cfgAge ⟨"extra", "TYPE_INT64"⟩
    (by decide) (by decide)).1

/-! ## Wavefront loop lemmas -/

theorem reachFrom_trans (g : Graph) (a b c : NodeId)
    (h1 : ReachFrom g a b) (h2 : ReachFrom g b c) : ReachFrom g a c := by
  induction h2 with
  | refl => exact h1
  | tail _ hedge ih => exact ReachFrom.tail ih hedge

theorem mem_phaseOf (pend : Pending) (a : NodeId) :
    a ∈ phaseOf pend ↔ ∃ e ∈ pend, e.1 = a ∧ e.2 = [] := by
  simp only [phaseOf, List.mem_map, List.mem_filter, List.isEmpty_iff]
  constructor
  · rintro ⟨e, ⟨he, hnil⟩, rfl⟩
    exact ⟨e, he, rfl, hnil⟩
  · rintro ⟨e, he, rfl, hnil⟩
    exact ⟨e, ⟨he, hnil⟩, rfl⟩

theorem phaseOf_subset_fst (pend : Pending) (a : NodeId)
    (ha : a ∈ phaseOf pend) : a ∈ pend.map Prod.fst := by
  obtain ⟨e, he, rfl, _⟩ := (mem_phaseOf pend a).mp ha
  exact List.mem_map.mpr ⟨e, he, rfl⟩

theorem nodupFst_inj (pend : Pending) :
    (pend.map Prod.fst).Nodup →
      ∀ e ∈ pend, ∀ f ∈ pend, e.1 = f.1 → e = f := by
  induction pend with
  | nil => intro _ e he; simp at he
  | cons x rest ih =>
    intro hnd e he f hf hef
    rw [List.map_cons, List.nodup_cons] at hnd
    rcases List.mem_cons.mp he with he1 | he1
    · rcases List.mem_cons.mp hf with hf1 | hf1
      · rw [he1, hf1]
      · exfalso
        apply hnd.1
        have hx : x.1 = f.1 := by rw [← he1]; exact hef
        rw [hx]
        exact List.mem_map.mpr ⟨f, hf1, rfl⟩
    · rcases List.mem_cons.mp hf with hf1 | hf1
      · exfalso
        apply hnd.1
        have hx : x.1 = e.1 := by rw [← hf1]; exact hef.symm
        rw [hx]
        exact List.mem_map.mpr ⟨e, he1, rfl⟩
      · exact ih hnd.2 e he1 f hf1 hef

theorem map_fst_filter_eq (pend : Pending) (P : NodeId × List NodeId → Bool)
    (Q : NodeId → Bool) (h : ∀ e ∈ pend, P e = Q e.1) :
    (pend.filter P).map Prod.fst = (pend.map Prod.fst).filter Q := by
  induction pend with
  | nil => rfl
  | cons x rest ih =>
    have hx := h x (List.mem_cons_self x rest)
    have hr := ih (fun e he => h e (List.mem_cons_of_mem x he))
    cases hq : Q x.1 with
    | false =>
      rw [List.filter_cons, List.map_cons, List.filter_cons]
      rw [hq] at hx ⊢
      rw [hx]
      exact hr
    | true =>
      rw [List.filter_cons, List.map_cons, List.filter_cons]
      rw [hq] at hx ⊢
      rw [hx]
      simpa using hr

theorem nextPending_map_fst (pend : Pending) (phase : List NodeId) :
    (nextPending pend phase).map Prod.fst =
      (pend.map Prod.fst).filter (fun a => decide (a ∉ phase)) := by
  unfold nextPending
  rw [List.map_map]
  exact map_fst_filter_eq pend _ _ (fun e _ => rfl)

theorem mem_nextPending (pend : Pending) (phase : List NodeId)
    (e' : NodeId × List NodeId) :
    e' ∈ nextPending pend phase ↔
      ∃ e ∈ pend, e.1 ∉ phase ∧
        e' = (e.1, e.2.filter (fun j => decide (j ∉ phase))) := by
  simp only [nextPending, List.mem_map, List.mem_filter, decide_eq_true_eq]
  constructor
  · rintro ⟨e, ⟨he, hni⟩, rfl⟩
    exact ⟨e, he, hni, rfl⟩
  · rintro ⟨e, he, hni, rfl⟩
    exact ⟨e, ⟨he, hni⟩, rfl⟩

theorem nodup_nextPending_fst (pend : Pending) (phase : List NodeId)
    (hnd : (pend.map Prod.fst).Nodup) :
    ((nextPending pend phase).map Prod.fst).Nodup := by
  rw [nextPending_map_fst]
  exact hnd.filter _

/-- With distinct pending identifiers, an entry is in the phase exactly
when its blocking set is empty. -/
theorem isEmpty_eq_mem_phase (pend : Pending)
    (hnd : (pend.map Prod.fst).Nodup) (e : NodeId × List NodeId)
    (he : e ∈ pend) :
    e.2.isEmpty = decide (e.1 ∈ phaseOf pend) := by
  cases hemp : e.2.isEmpty with
  | true =>
    have : e.1 ∈ phaseOf pend :=
      (mem_phaseOf pend e.1).mpr ⟨e, he, rfl, List.isEmpty_iff.mp hemp⟩
    simp [this]
  | false =>
    have : e.1 ∉ phaseOf pend := by
      intro hc
      obtain ⟨f, hf, hfe, hfnil⟩ := (mem_phaseOf pend e.1).mp hc
      have := nodupFst_inj pend hnd f hf e he hfe
      rw [this] at hfnil
      rw [hfnil] at hemp
      exact Bool.noConfusion hemp
    simp [this]

/-- The pending identifiers split into the phase and the next pending
identifiers. -/
theorem pend_fst_partition (pend : Pending)
    (hnd : (pend.map Prod.fst).Nodup) :
    (pend.map Prod.fst).Perm
      (phaseOf pend ++ (nextPending pend (phaseOf pend)).map Prod.fst) := by
  have h1 : phaseOf pend =
      (pend.map Prod.fst).filter (fun a => decide (a ∈ phaseOf pend)) := by
    conv_lhs => rw [phaseOf]
    exact map_fst_filter_eq pend _ _ (isEmpty_eq_mem_phase pend hnd)
  have h23 : (nextPending pend (phaseOf pend)).map Prod.fst
      = (pend.map Prod.fst).filter (fun a => !(decide (a ∈ phaseOf pend))) := by
    rw [nextPending_map_fst]
    apply List.filter_congr
    intro a _
    simp
  have heq : phaseOf pend ++ (nextPending pend (phaseOf pend)).map Prod.fst
      = (pend.map Prod.fst).filter (fun a => decide (a ∈ phaseOf pend))
        ++ (pend.map Prod.fst).filter (fun a => !(decide (a ∈ phaseOf pend))) :=
    congrArg₂ (· ++ ·) h1 h23
  rw [heq]
  exact (List.filter_append_perm _ (pend.map Prod.fst)).symm

theorem nextPending_length_lt (pend : Pending)
    (hph : phaseOf pend ≠ []) :
    (nextPending pend (phaseOf pend)).length < pend.length := by
  obtain ⟨a, ha⟩ := List.exists_mem_of_ne_nil _ hph
  obtain ⟨e, he, hea, hnil⟩ := (mem_phaseOf pend a).mp ha
  have hlen : (nextPending pend (phaseOf pend)).length =
      ((pend.filter (fun e => decide (e.1 ∉ phaseOf pend)))).length := by
    unfold nextPending
    rw [List.length_map]
  rw [hlen]
  have hmem : ∃ x ∈ pend, ¬(decide (x.1 ∉ phaseOf pend) = true) := by
    refine ⟨e, he, ?_⟩
    simp only [decide_eq_true_eq, Decidable.not_not]
    rw [hea]
    exact ha
  calc ((pend.filter (fun e => decide (e.1 ∉ phaseOf pend)))).length
      < pend.length := by
        by_contra hcon
        push_neg at hcon
        have := List.Sublist.length_le (List.filter_sublist pend
          (p := fun e => decide (e.1 ∉ phaseOf pend)))
        have heq := Nat.le_antisymm this hcon
        obtain ⟨x, hx, hnx⟩ := hmem
        have := (List.filter_length_eq_length (l := pend)
          (p := fun e => decide (e.1 ∉ phaseOf pend))).mp heq x hx
        exact hnx this

/-- A node not in the phase is untouched by phase processing. -/
theorem processPhase_frame (g : Graph) (root : Schema) (phase : List NodeId) :
    ∀ (st : FitState) (i : NodeId), i ∉ phase →
      processPhase g root phase st i = st i := by
  induction phase with
  | nil => intro st i _; rfl
  | cons x rest ih =>
    intro st i hi
    have hix : i ≠ x := fun hc => hi (hc ▸ List.mem_cons_self x rest)
    have hir : i ∉ rest := fun hc => hi (List.mem_cons_of_mem x hc)
    show processPhase g root rest (processNode g root st x) i = st i
    rw [ih (processNode g root st x) i hir]
    simp [processNode, setNode, hix]

/-- Phase processing never unsets a schema. -/
theorem processPhase_isSome_mono (g : Graph) (root : Schema)
    (phase : List NodeId) :
    ∀ (st : FitState) (i : NodeId), (st i).isSome →
      (processPhase g root phase st i).isSome := by
  induction phase with
  | nil => intro st i h; exact h
  | cons x rest ih =>
    intro st i h
    show (processPhase g root rest (processNode g root st x) i).isSome
    apply ih
    by_cases hix : i = x
    · simp [processNode, setNode, hix]
    · simpa [processNode, setNode, hix] using h

/-- The loop invariant is preserved by removing a processed phase. -/
theorem loopInv_next (g : Graph) (pend : Pending) (inv : LoopInv g pend) :
    LoopInv g (nextPending pend (phaseOf pend)) := by
  constructor
  case nodupFst => exact nodup_nextPending_fst pend _ inv.nodupFst
  case fstLt =>
    intro e' he'
    obtain ⟨e, he, _, rfl⟩ := (mem_nextPending pend _ e').mp he'
    exact inv.fstLt e he
  case blockSub =>
    intro e' he' j hj
    obtain ⟨e, he, _, rfl⟩ := (mem_nextPending pend _ e').mp he'
    rw [List.mem_filter, decide_eq_true_eq] at hj
    rw [nextPending_map_fst, List.mem_filter]
    exact ⟨inv.blockSub e he j hj.1, by simp [hj.2]⟩
  case blockAnc =>
    intro e' he' j hj
    obtain ⟨e, he, _, rfl⟩ := (mem_nextPending pend _ e').mp he'
    rw [List.mem_filter] at hj
    exact inv.blockAnc e he j hj.1
  case parentBlock =>
    intro e' he' p hp hpf
    obtain ⟨e, he, _, rfl⟩ := (mem_nextPending pend _ e').mp he'
    rw [nextPending_map_fst, List.mem_filter, decide_eq_true_eq] at hpf
    rw [List.mem_filter]
    exact ⟨inv.parentBlock e he p hp hpf.1, by simp [hpf.2]⟩

theorem pendingInit_map_fst (g : Graph) (st0 : FitState) :
    (pendingInit g st0).map Prod.fst =
      (reachList g).filter (fun i => (st0 i).isNone) := by
  unfold pendingInit
  rw [List.map_map]
  exact List.map_id _

theorem mem_pendingInit (g : Graph) (st0 : FitState)
    (e : NodeId × List NodeId) :
    e ∈ pendingInit g st0 ↔
      e.1 ∈ reachList g ∧ (st0 e.1).isNone ∧
        e.2 = (reachFromList g (g.node e.1).parentsWithDependencies).filter
          (fun j => (st0 j).isNone) := by
  simp only [pendingInit, List.mem_map, List.mem_filter]
  constructor
  · rintro ⟨i, ⟨hi, hn⟩, rfl⟩
    exact ⟨hi, hn, rfl⟩
  · rintro ⟨hi, hn, hb⟩
    exact ⟨e.1, ⟨hi, hn⟩, by rw [← hb]⟩

theorem reachList_lt (g : Graph) (hwf : Wf g) :
    ∀ i ∈ reachList g, i < g.nodes.length := by
  intro i hi
  exact iterExpand_bounded g [g.outputNode] hwf
    (by intro s hs; rw [List.mem_singleton] at hs; rw [hs]; exact hwf.2)
    g.nodes.length i hi

/-- The initial bookkeeping of `fit_schema` satisfies the loop
invariant. -/
theorem loopInv_init (g : Graph) (st0 : FitState) (hwf : Wf g) :
    LoopInv g (pendingInit g st0) := by
  constructor
  case nodupFst =>
    rw [pendingInit_map_fst]
    exact (nodup_reachFromList g _).filter _
  case fstLt =>
    intro e he
    exact reachList_lt g hwf e.1 ((mem_pendingInit g st0 e).mp he).1
  case blockSub =>
    intro e he j hj
    obtain ⟨hre, hne, hb⟩ := (mem_pendingInit g st0 e).mp he
    rw [hb, List.mem_filter] at hj
    obtain ⟨hjr, hjn⟩ := hj
    obtain ⟨p, hp, hpj⟩ := iterExpand_sound g _ _ j hjr
    have hreach : Reaches g j := by
      have h1 : Reaches g e.1 := (mem_reachList g hwf e.1).mp hre
      exact reachFrom_trans g _ _ _ (ReachFrom.tail h1 hp) hpj
    rw [pendingInit_map_fst, List.mem_filter]
    exact ⟨(mem_reachList g hwf j).mpr hreach, hjn⟩
  case blockAnc =>
    intro e he j hj
    obtain ⟨_, _, hb⟩ := (mem_pendingInit g st0 e).mp he
    rw [hb, List.mem_filter] at hj
    obtain ⟨p, hp, hpj⟩ := iterExpand_sound g _ _ j hj.1
    exact ⟨p, hp, hpj⟩
  case parentBlock =>
    intro e he p hp hpf
    obtain ⟨_, _, hb⟩ := (mem_pendingInit g st0 e).mp he
    rw [pendingInit_map_fst, List.mem_filter] at hpf
    rw [hb, List.mem_filter]
    exact ⟨self_mem_reachFromList g _ p hp, hpf.2⟩

/-- A non-empty list has an element minimizing any measure. -/
theorem exists_min_measure {α : Type} (l : List α) (f : α → Nat)
    (h : l ≠ []) : ∃ e ∈ l, ∀ e' ∈ l, f e ≤ f e' := by
  induction l with
  | nil => exact absurd rfl h
  | cons x rest ih =>
    cases rest with
    | nil =>
      refine ⟨x, List.mem_cons_self x [], ?_⟩
      intro e' he'
      rw [List.mem_singleton.mp he']
    | cons y ys =>
      obtain ⟨e, he, hmin⟩ := ih (by simp)
      by_cases hx : f x ≤ f e
      · refine ⟨x, List.mem_cons_self x _, ?_⟩
        intro e' he'
        rcases List.mem_cons.mp he' with rfl | he'
        · exact Nat.le_refl _
        · exact Nat.le_trans hx (hmin e' he')
      · refine ⟨e, List.mem_cons_of_mem x he, ?_⟩
        intro e' he'
        rcases List.mem_cons.mp he' with rfl | he'
        · exact Nat.le_of_lt (Nat.lt_of_not_le hx)
        · exact hmin e' he'

/-- Progress: for an acyclic well-formed graph, a non-empty pending set
always yields a non-empty phase. -/
theorem phaseOf_ne_nil_of_acyclic (g : Graph) (pend : Pending)
    (hwf : Wf g) (hacyc : Acyclic g) (inv : LoopInv g pend)
    (hne : pend ≠ []) : phaseOf pend ≠ [] := by
  obtain ⟨rank, hrank⟩ := hacyc
  obtain ⟨e, he, hmin⟩ := exists_min_measure pend (fun e => rank e.1) hne
  have hempty : e.2 = [] := by
    by_contra hcon
    obtain ⟨j, hj⟩ := List.exists_mem_of_ne_nil _ hcon
    obtain ⟨p, hp, hrj⟩ := inv.blockAnc e he j hj
    have hplen : p < g.nodes.length := hwf.1 e.1 (inv.fstLt e he) p hp
    have h1 : rank j ≤ rank p :=
      rank_le_of_reachFrom g hwf rank hrank p j hplen hrj
    have h2 : rank p < rank e.1 := hrank e.1 (inv.fstLt e he) p hp
    obtain ⟨f, hf, hfj⟩ := List.mem_map.mp (inv.blockSub e he j hj)
    have h3 := hmin f hf
    rw [hfj] at h3
    omega
  intro hph
  have : e.1 ∈ phaseOf pend := (mem_phaseOf pend e.1).mpr ⟨e, he, rfl, hempty⟩
  rw [hph] at this
  exact absurd this (List.not_mem_nil e.1)

/-- Every node of the phase has its schema set after phase processing. -/
theorem processPhase_sets (g : Graph) (root : Schema) (phase : List NodeId) :
    ∀ (st : FitState) (i : NodeId), i ∈ phase →
      (processPhase g root phase st i).isSome := by
  induction phase with
  | nil => intro st i h; simp at h
  | cons x rest ih =>
    intro st i hi
    show (processPhase g root rest (processNode g root st x) i).isSome
    rcases List.mem_cons.mp hi with rfl | hi
    · apply processPhase_isSome_mono
      simp [processNode, setNode]
    · exact ih _ i hi

/-! ## Wavefront loop: behaviour lemmas -/

theorem fitLoopF_nil (g : Graph) (root : Schema) (fuel : Nat)
    (st : FitState) (tr : List NodeId) :
    fitLoopF g root fuel [] st tr = .ok (st, tr) := by
  cases fuel <;> rfl

theorem fitLoopF_zero_cons (g : Graph) (root : Schema)
    (e : NodeId × List NodeId) (rest : Pending) (st : FitState)
    (tr : List NodeId) :
    fitLoopF g root 0 (e :: rest) st tr = .error .noProgress := rfl

theorem fitLoopF_succ_cons (g : Graph) (root : Schema) (fuel : Nat)
    (e : NodeId × List NodeId) (rest : Pending) (st : FitState)
    (tr : List NodeId) :
    fitLoopF g root (fuel+1) (e :: rest) st tr =
      if (phaseOf (e :: rest)).isEmpty then .error .noProgress
      else
        fitLoopF g root fuel (nextPending (e :: rest) (phaseOf (e :: rest)))
          (processPhase g root (phaseOf (e :: rest)) st)
          (tr ++ phaseOf (e :: rest)) := rfl

/-- On success, nodes outside the pending set keep their schema state. -/
theorem fitLoopF_frame (g : Graph) (root : Schema) :
    ∀ (fuel : Nat) (pend : Pending) (st : FitState) (tr : List NodeId)
      (st' : FitState) (tr' : List NodeId),
      fitLoopF g root fuel pend st tr = .ok (st', tr') →
      ∀ i, i ∉ pend.map Prod.fst → st' i = st i := by
  intro fuel
  induction fuel with
  | zero =>
    intro pend st tr st' tr' heq i _
    cases pend with
    | nil =>
      rw [fitLoopF_nil] at heq
      injection heq with h
      injection h with h1 _
      rw [← h1]
    | cons e rest => exact Except.noConfusion heq
  | succ fuel ih =>
    intro pend st tr st' tr' heq i hi
    cases pend with
    | nil =>
      rw [fitLoopF_nil] at heq
      injection heq with h
      injection h with h1 _
      rw [← h1]
    | cons e rest =>
      rw [fitLoopF_succ_cons] at heq
      by_cases hph : (phaseOf (e :: rest)).isEmpty = true
      · rw [if_pos hph] at heq
        exact Except.noConfusion heq
      · rw [if_neg hph] at heq
        have hsub : i ∉ (nextPending (e :: rest)
            (phaseOf (e :: rest))).map Prod.fst := by
          rw [nextPending_map_fst]
          intro hc
          exact hi (List.mem_of_mem_filter hc)
        rw [ih _ _ _ _ _ heq i hsub]
        exact processPhase_frame g root _ _ i
          (fun hc => hi (phaseOf_subset_fst _ i hc))

/-- On success, a set schema never becomes unset. -/
theorem fitLoopF_isSome_mono (g : Graph) (root : Schema) :
    ∀ (fuel : Nat) (pend : Pending) (st : FitState) (tr : List NodeId)
      (st' : FitState) (tr' : List NodeId),
      fitLoopF g root fuel pend st tr = .ok (st', tr') →
      ∀ i, (st i).isSome → (st' i).isSome := by
  intro fuel
  induction fuel with
  | zero =>
    intro pend st tr st' tr' heq i hsome
    cases pend with
    | nil =>
      rw [fitLoopF_nil] at heq
      injection heq with h
      injection h with h1 _
      rw [← h1]
      exact hsome
    | cons e rest => exact Except.noConfusion heq
  | succ fuel ih =>
    intro pend st tr st' tr' heq i hsome
    cases pend with
    | nil =>
      rw [fitLoopF_nil] at heq
      injection heq with h
      injection h with h1 _
      rw [← h1]
      exact hsome
    | cons e rest =>
      rw [fitLoopF_succ_cons] at heq
      by_cases hph : (phaseOf (e :: rest)).isEmpty = true
      · rw [if_pos hph] at heq
        exact Except.noConfusion heq
      · rw [if_neg hph] at heq
        exact ih _ _ _ _ _ heq i
          (processPhase_isSome_mono g root _ st i hsome)

/-- On success, every pending node's schema ends up set. -/
theorem fitLoopF_sets (g : Graph) (root : Schema) :
    ∀ (fuel : Nat) (pend : Pending) (st : FitState) (tr : List NodeId)
      (st' : FitState) (tr' : List NodeId),
      fitLoopF g root fuel pend st tr = .ok (st', tr') →
      (pend.map Prod.fst).Nodup →
      ∀ i ∈ pend.map Prod.fst, (st' i).isSome := by
  intro fuel
  induction fuel with
  | zero =>
    intro pend st tr st' tr' heq _ i hi
    cases pend with
    | nil => simp at hi
    | cons e rest => exact Except.noConfusion heq
  | succ fuel ih =>
    intro pend st tr st' tr' heq hnd i hi
    cases pend with
    | nil => simp at hi
    | cons e rest =>
      rw [fitLoopF_succ_cons] at heq
      by_cases hph : (phaseOf (e :: rest)).isEmpty = true
      · rw [if_pos hph] at heq
        exact Except.noConfusion heq
      · rw [if_neg hph] at heq
        have hpart := pend_fst_partition (e :: rest) hnd
        rcases List.mem_append.mp (hpart.mem_iff.mp hi) with hip | hip
        · exact fitLoopF_isSome_mono g root _ _ _ _ _ _ heq i
            (processPhase_sets g root _ st i hip)
        · exact ih _ _ _ _ _ heq (nodup_nextPending_fst _ _ hnd) i hip

/-- For an acyclic well-formed graph the loop succeeds (with sufficient
fuel), and the trace extends the input trace by exactly the pending
nodes, up to permutation. -/
theorem fitLoopF_ok_of_acyclic (g : Graph) (root : Schema)
    (hwf : Wf g) (hacyc : Acyclic g) :
    ∀ (fuel : Nat) (pend : Pending) (st : FitState) (tr : List NodeId),
      LoopInv g pend → pend.length ≤ fuel →
      ∃ st' tr', fitLoopF g root fuel pend st tr = .ok (st', tr')
        ∧ tr'.Perm (tr ++ pend.map Prod.fst) := by
  intro fuel
  induction fuel with
  | zero =>
    intro pend st tr _ hlen
    have hnil : pend = [] := List.eq_nil_of_length_eq_zero (Nat.le_zero.mp hlen)
    subst hnil
    exact ⟨st, tr, fitLoopF_nil g root 0 st tr, by simp⟩
  | succ fuel ih =>
    intro pend st tr inv hlen
    cases pend with
    | nil => exact ⟨st, tr, fitLoopF_nil g root _ st tr, by simp⟩
    | cons e rest =>
      have hph := phaseOf_ne_nil_of_acyclic g (e :: rest) hwf hacyc inv
        (by simp)
      have hphC : ¬((phaseOf (e :: rest)).isEmpty = true) :=
        fun h => hph (List.isEmpty_iff.mp h)
      have hlt := nextPending_length_lt (e :: rest) hph
      obtain ⟨st', tr', heq, hperm⟩ := ih
        (nextPending (e :: rest) (phaseOf (e :: rest)))
        (processPhase g root (phaseOf (e :: rest)) st)
        (tr ++ phaseOf (e :: rest))
        (loopInv_next g (e :: rest) inv)
        (by omega)
      refine ⟨st', tr', ?_, ?_⟩
      · rw [fitLoopF_succ_cons, if_neg hphC]
        exact heq
      · apply hperm.trans
        rw [List.append_assoc]
        exact List.Perm.append_left tr
          (pend_fst_partition (e :: rest) inv.nodupFst).symm

/-- If the pending set is non-empty but every pending node is blocked,
the loop aborts with the fatal error. -/
theorem fitLoopF_stuck (g : Graph) (root : Schema) (fuel : Nat)
    (pend : Pending) (st : FitState) (tr : List NodeId)
    (hne : pend ≠ []) (hblocked : ∀ e ∈ pend, e.2 ≠ []) :
    fitLoopF g root fuel pend st tr = .error .noProgress := by
  have hph : phaseOf pend = [] := by
    have hfil : pend.filter (fun e => e.2.isEmpty) = [] := by
      rw [List.filter_eq_nil_iff]
      intro e he
      simpa [List.isEmpty_iff] using hblocked e he
    unfold phaseOf
    rw [hfil]
    rfl
  cases pend with
  | nil => exact absurd rfl hne
  | cons e rest =>
    cases fuel with
    | zero => rfl
    | succ fuel =>
      rw [fitLoopF_succ_cons, hph]
      rfl

/-- A pending parent cycle is never scheduled: the loop ends in the
fatal error. -/
theorem fitLoopF_cycle (g : Graph) (root : Schema) (C : List NodeId)
    (hC : C ≠ []) :
    ∀ (fuel : Nat) (pend : Pending) (st : FitState) (tr : List NodeId),
      (pend.map Prod.fst).Nodup →
      (∀ i ∈ C, i ∈ pend.map Prod.fst) →
      (∀ e ∈ pend, e.1 ∈ C → ∃ p ∈ C, p ∈ e.2) →
      fitLoopF g root fuel pend st tr = .error .noProgress := by
  intro fuel
  induction fuel with
  | zero =>
    intro pend st tr _ hsub _
    cases pend with
    | nil =>
      obtain ⟨i, hi⟩ := List.exists_mem_of_ne_nil C hC
      exact absurd (hsub i hi) (by simp)
    | cons e rest => rfl
  | succ fuel ih =>
    intro pend st tr hnd hsub hblock
    cases pend with
    | nil =>
      obtain ⟨i, hi⟩ := List.exists_mem_of_ne_nil C hC
      exact absurd (hsub i hi) (by simp)
    | cons e rest =>
      have hnotphase : ∀ i ∈ C, i ∉ phaseOf (e :: rest) := by
        intro i hi hph
        obtain ⟨f, hf, hfi, hfnil⟩ := (mem_phaseOf _ i).mp hph
        obtain ⟨p, _, hpb⟩ := hblock f hf (by rw [hfi]; exact hi)
        rw [hfnil] at hpb
        exact absurd hpb (List.not_mem_nil p)
      by_cases hph : (phaseOf (e :: rest)).isEmpty = true
      · rw [fitLoopF_succ_cons, if_pos hph]
      · rw [fitLoopF_succ_cons, if_neg hph]
        apply ih
        · exact nodup_nextPending_fst _ _ hnd
        · intro i hi
          rw [nextPending_map_fst, List.mem_filter]
          exact ⟨hsub i hi, by simp [hnotphase i hi]⟩
        · intro e' he' he'C
          obtain ⟨f, hf, _, rfl⟩ := (mem_nextPending _ _ e').mp he'
          obtain ⟨p, hpC, hpb⟩ := hblock f hf he'C
          refine ⟨p, hpC, ?_⟩
          rw [List.mem_filter]
          exact ⟨hpb, by simp [hnotphase p hpC]⟩

/-! ## fit_schema: claim theorems -/

theorem map_filter_eq_filter_map {α β : Type} (l : List α) (f : α → β)
    (P : α → Bool) (Q : β → Bool) (h : ∀ x ∈ l, P x = Q (f x)) :
    (l.filter P).map f = (l.map f).filter Q := by
  induction l with
  | nil => rfl
  | cons x rest ih =>
    have hx := h x (List.mem_cons_self x rest)
    have hr := ih (fun e he => h e (List.mem_cons_of_mem x he))
    cases hq : Q (f x) with
    | false =>
      rw [List.filter_cons, List.map_cons, List.filter_cons]
      rw [hq] at hx ⊢
      rw [hx]
      exact hr
    | true =>
      rw [List.filter_cons, List.map_cons, List.filter_cons]
      rw [hq] at hx ⊢
      rw [hx]
      simpa using hr

theorem mem_upstreamOutputNames (g : Graph) (i : NodeId) (nm : String) :
    nm ∈ upstreamOutputNames g i ↔
      ∃ j ∈ (g.node i).parentsWithDependencies, nm ∈ (g.node j).outputCols := by
  unfold upstreamOutputNames
  rw [mem_getUnique, List.mem_flatMap]

theorem mem_nodeExternalCols (g : Graph) (i : NodeId) (nm : String) :
    nm ∈ nodeExternalCols g i ↔
      nm ∈ (g.node i).inputCols ∧
        ∀ j ∈ (g.node i).parentsWithDependencies, nm ∉ (g.node j).outputCols := by
  unfold nodeExternalCols
  rw [List.mem_filter, decide_eq_true_eq, mem_getUnique]
  constructor
  · rintro ⟨h1, h2⟩
    refine ⟨h1, ?_⟩
    intro j hj hcon
    exact h2 ((mem_upstreamOutputNames g i nm).mpr ⟨j, hj, hcon⟩)
  · rintro ⟨h1, h2⟩
    refine ⟨h1, ?_⟩
    intro hc
    obtain ⟨j, hj, hcj⟩ := (mem_upstreamOutputNames g i nm).mp hc
    exact h2 j hj hcj

theorem mem_inputColumns_iff (g : Graph) (hwf : Wf g) (nm : String) :
    nm ∈ inputColumns g ↔ externallyRequired g nm := by
  unfold inputColumns
  rw [mem_getUnique, List.mem_flatMap]
  constructor
  · rintro ⟨i, hi, hni⟩
    obtain ⟨h1, h2⟩ := (mem_nodeExternalCols g i nm).mp hni
    exact ⟨i, (mem_reachList g hwf i).mp hi, h1, h2⟩
  · rintro ⟨i, hre, hin, hout⟩
    exact ⟨i, (mem_reachList g hwf i).mpr hre,
      (mem_nodeExternalCols g i nm).mpr ⟨hin, hout⟩⟩

/-- Destructure a successful `fit_schema` run. -/
theorem fitSchema_ok_elim (g : Graph) (st0 : FitState) (root : Schema)
    (out : FitOutcome) (h : fitSchema g st0 root = .ok out) :
    ∃ st' tr',
      fitLoopF g root (pendingInit g st0).length (pendingInit g st0) st0 []
          = .ok (st', tr')
        ∧ out.state = st' ∧ out.trace = tr'
        ∧ out.inputSchema = ⟨root.columnSchemas.filter
            (fun c => decide (c.name ∈ inputColumns g))⟩
        ∧ out.outputSchema = (st' g.outputNode).map Prod.snd := by
  unfold fitSchema at h
  simp only [] at h
  split at h
  · exact Except.noConfusion h
  · rename_i st' tr' heq
    injection h with h1
    exact ⟨st', tr', heq, by rw [← h1], by rw [← h1], by rw [← h1],
      by rw [← h1]⟩

/-- C4: the graph-level input-column computation visits every reachable
node exactly once; each node contributes its required input names not
produced by its parents and dependencies combined; the accumulated names
are de-duplicated preserving first-seen order (a duplicate-free,
order-preserving sublist of the accumulation with the same members); and
a successful fit intersects them with the root schema's column names to
produce `graph.input_schema`. -/
theorem inputColumns_characterization (g : Graph) (hwf : Wf g) :
    ((reachList g).Nodup ∧ (∀ i, i ∈ reachList g ↔ Reaches g i))
    ∧ (∀ i nm, nm ∈ nodeExternalCols g i ↔
        (nm ∈ (g.node i).inputCols ∧
          ∀ j ∈ (g.node i).parentsWithDependencies,
            nm ∉ (g.node j).outputCols))
    ∧ (inputColumns g).Nodup
    ∧ List.Sublist (inputColumns g)
        ((reachList g).flatMap (nodeExternalCols g))
    ∧ (∀ nm, nm ∈ inputColumns g ↔ externallyRequired g nm)
    ∧ (∀ st0 root out, fitSchema g st0 root = .ok out →
        out.inputSchema.columnNames =
          root.columnNames.filter (fun nm => decide (nm ∈ inputColumns g))) := by
  refine ⟨⟨nodup_reachFromList g _, fun i => mem_reachList g hwf i⟩,
    fun i nm => mem_nodeExternalCols g i nm,
    nodup_getUnique _, getUnique_sublist _,
    fun nm => mem_inputColumns_iff g hwf nm, ?_⟩
  intro st0 root out h
  obtain ⟨st', tr', _, _, _, hin, _⟩ := fitSchema_ok_elim g st0 root out h
  rw [hin]
  unfold Schema.columnNames
  exact map_filter_eq_filter_map root.columnSchemas (·.name) _ _
    (fun c _ => rfl)

/-- Witness for C4 at the chain fixture: the two-node chain externally
requires B (from the sink) and A (from the source), in traversal
first-seen order, and a fit restricts the root schema to those names in
root order. -/
theorem inputColumns_characterization_witness :
    Wf gChain
    ∧ inputColumns gChain = ["B", "A"]
    ∧ (∀ nm, nm ∈ inputColumns gChain ↔ externallyRequired gChain nm) := by
  refine ⟨by decide, by decide, ?_⟩
  exact (inputColumns_characterization gChain (by decide)).2.2.2.2.1

/-- C1: after `fit_schema` returns successfully, the graph's output
schema is exactly the output node's (set) output schema, and the graph's
input schema consists exactly of those column descriptors of the root
schema whose names are externally required (consumed by some reachable
node and not produced by any of its parents or dependencies) — a
de-duplicated subset of the root schema. -/
theorem fitSchema_graph_schemas (g : Graph) (st0 : FitState) (root : Schema)
    (hwf : Wf g) (out : FitOutcome) (h : fitSchema g st0 root = .ok out) :
    (∃ io, out.state g.outputNode = some io ∧ out.outputSchema = some io.2)
    ∧ (∀ c, c ∈ out.inputSchema.columnSchemas ↔
        c ∈ root.columnSchemas ∧ externallyRequired g c.name)
    ∧ (root.columnNames.Nodup → out.inputSchema.columnNames.Nodup) := by
  obtain ⟨st', tr', heq, hstate, htrace, hin, hout⟩ :=
    fitSchema_ok_elim g st0 root out h
  refine ⟨?_, ?_, ?_⟩
  · have hsome : (st' g.outputNode).isSome := by
      cases hst0 : st0 g.outputNode with
      | some v =>
        have hni : g.outputNode ∉ (pendingInit g st0).map Prod.fst := by
          rw [pendingInit_map_fst, List.mem_filter]
          rintro ⟨_, hn⟩
          rw [hst0] at hn
          simp at hn
        rw [fitLoopF_frame g root _ _ _ _ _ _ heq _ hni, hst0]
        rfl
      | none =>
        apply fitLoopF_sets g root _ _ _ _ _ _ heq
          (loopInv_init g st0 hwf).nodupFst
        rw [pendingInit_map_fst, List.mem_filter]
        refine ⟨self_mem_reachFromList g _ _ (List.mem_singleton_self _), ?_⟩
        rw [hst0]
        rfl
    obtain ⟨io, hio⟩ := Option.isSome_iff_exists.mp hsome
    refine ⟨io, by rw [hstate]; exact hio, ?_⟩
    rw [hout, hio]
    rfl
  · intro c
    rw [hin]
    show c ∈ root.columnSchemas.filter _ ↔ _
    rw [List.mem_filter, decide_eq_true_eq, mem_inputColumns_iff g hwf]
  · intro hnd
    rw [hin]
    show ((root.columnSchemas.filter _).map (·.name)).Nodup
    exact hnd.sublist ((List.filter_sublist _).map _)

/-- Witness for C1 at the chain fixture: the fit succeeds, the graph
output schema is the sink's output schema, and the graph input schema is
the A and B descriptors of the root schema (unused C excluded), in root
order. -/
theorem fitSchema_graph_schemas_witness :
    Wf gChain
    ∧ fitSchema gChain (fun _ => none) rootChain
        = .ok (fitOutcomeOf gChain (fun _ => none) rootChain)
    ∧ (∃ io, (fitOutcomeOf gChain (fun _ => none) rootChain).state
          gChain.outputNode = some io
        ∧ (fitOutcomeOf gChain (fun _ => none) rootChain).outputSchema
            = some io.2)
    ∧ (fitOutcomeOf gChain (fun _ => none) rootChain).inputSchema
        = ⟨[intCol "A", intCol "B"]⟩ :=
  ⟨by decide, rfl,
    (fitSchema_graph_schemas gChain (fun _ => none) rootChain (by decide)
      _ rfl).1,
    rfl⟩

/-- C5: for every acyclic well-formed graph and root schema, `fit_schema`
terminates successfully; every reachable node that started schemaless is
processed exactly once (appears once in the trace) and ends with its
schemas set, and every reachable node ends with its schemas set. -/
theorem fitSchema_terminates_sets_once (g : Graph) (st0 : FitState)
    (root : Schema) (hwf : Wf g) (hacyc : Acyclic g) :
    ∃ out, fitSchema g st0 root = .ok out
      ∧ (∀ i, Reaches g i → st0 i = none →
          out.trace.count i = 1 ∧ (out.state i).isSome)
      ∧ (∀ i, Reaches g i → (out.state i).isSome) := by
  obtain ⟨st', tr', heq, hperm⟩ := fitLoopF_ok_of_acyclic g root hwf hacyc
    (pendingInit g st0).length (pendingInit g st0) st0 []
    (loopInv_init g st0 hwf) (Nat.le_refl _)
  have hnd := (loopInv_init g st0 hwf).nodupFst
  refine ⟨{ state := st', trace := tr',
            inputSchema := ⟨root.columnSchemas.filter
              (fun c => decide (c.name ∈ inputColumns g))⟩,
            outputSchema := (st' g.outputNode).map Prod.snd }, ?_, ?_, ?_⟩
  · unfold fitSchema
    simp only []
    rw [heq]
  · intro i hre hnone
    have hmem : i ∈ (pendingInit g st0).map Prod.fst := by
      rw [pendingInit_map_fst, List.mem_filter]
      exact ⟨(mem_reachList g hwf i).mpr hre, by rw [hnone]; rfl⟩
    refine ⟨?_, fitLoopF_sets g root _ _ _ _ _ _ heq hnd i hmem⟩
    show tr'.count i = 1
    rw [hperm.count_eq, List.nil_append]
    exact List.count_eq_one_of_mem hnd hmem
  · intro i hre
    cases hst : st0 i with
    | none =>
      apply fitLoopF_sets g root _ _ _ _ _ _ heq hnd
      rw [pendingInit_map_fst, List.mem_filter]
      exact ⟨(mem_reachList g hwf i).mpr hre, by rw [hst]; rfl⟩
    | some v =>
      exact fitLoopF_isSome_mono g root _ _ _ _ _ _ heq i (by rw [hst]; rfl)

/-- Witness for C5 at the chain fixture with an explicit rank function. -/
theorem fitSchema_terminates_sets_once_witness :
    Wf gChain ∧ Acyclic gChain
    ∧ ∃ out, fitSchema gChain (fun _ => none) rootChain = .ok out
        ∧ (∀ i, Reaches gChain i → (fun _ => (none : Option (Schema × Schema))) i = none →
            out.trace.count i = 1 ∧ (out.state i).isSome)
        ∧ (∀ i, Reaches gChain i → (out.state i).isSome) :=
  ⟨by decide, ⟨fun i => i, by decide⟩,
    fitSchema_terminates_sets_once gChain (fun _ => none) rootChain
      (by decide) ⟨fun i => i, by decide⟩⟩

/-- C2: whenever the pending set is non-empty but no pending node has an
empty blocking set, the wavefront loop aborts with the fatal
`GraphConstructionError` instead of looping (the loop is a total
function); in particular a graph with a parent cycle among unset
reachable nodes makes `fit_schema` abort with that error, returning no
result at all. -/
theorem fitSchema_stuck_aborts (g : Graph) (st0 : FitState) (root : Schema)
    (hwf : Wf g) :
    (∀ (fuel : Nat) (pend : Pending) (st : FitState) (tr : List NodeId),
      pend ≠ [] → (∀ e ∈ pend, e.2 ≠ []) →
      fitLoopF g root fuel pend st tr = .error .noProgress)
    ∧ (hasUnsetParentCycle g st0 →
        fitSchema g st0 root = .error .noProgress) := by
  refine ⟨fun fuel pend st tr hne hb =>
    fitLoopF_stuck g root fuel pend st tr hne hb, ?_⟩
  rintro ⟨C, hC, hprop⟩
  have herr : fitLoopF g root (pendingInit g st0).length (pendingInit g st0)
      st0 [] = .error .noProgress := by
    apply fitLoopF_cycle g root C hC _ _ _ _
      (loopInv_init g st0 hwf).nodupFst
    · intro i hi
      obtain ⟨hreach, hunset, _⟩ := hprop i hi
      rw [pendingInit_map_fst, List.mem_filter]
      exact ⟨(mem_reachList g hwf i).mpr hreach, by rw [hunset]; rfl⟩
    · intro e he heC
      obtain ⟨_, _, p, hp, hpC⟩ := hprop e.1 heC
      refine ⟨p, hpC, ?_⟩
      obtain ⟨_, _, hb⟩ := (mem_pendingInit g st0 e).mp he
      rw [hb, List.mem_filter]
      have hpunset := (hprop p hpC).2.1
      exact ⟨self_mem_reachFromList g _ p hp, by rw [hpunset]; rfl⟩
  unfold fitSchema
  simp only []
  rw [herr]

/-- Witness for C2: the two-node parent cycle aborts with the fatal
error. -/
theorem fitSchema_stuck_aborts_witness :
    Wf gCycle
    ∧ hasUnsetParentCycle gCycle (fun _ => none)
    ∧ fitSchema gCycle (fun _ => none) Schema.empty
        = .error .noProgress := by
  have h0 : Reaches gCycle 0 := ReachFrom.refl 0
  have h1 : Reaches gCycle 1 := ReachFrom.tail h0 (by decide)
  have hcyc : hasUnsetParentCycle gCycle (fun _ => none) := by
    refine ⟨[0, 1], by simp, ?_⟩
    intro i hi
    rcases List.mem_cons.mp hi with rfl | hi
    · exact ⟨h0, rfl, 1, by decide, by decide⟩
    · rw [List.mem_singleton.mp hi]
      exact ⟨h1, rfl, 0, by decide, by decide⟩
  exact ⟨by decide, hcyc,
    (fitSchema_stuck_aborts gCycle (fun _ => none) Schema.empty
      (by decide)).2 hcyc⟩

/-- C6: refitting is idempotent: a fit from a fresh (all-unset) graph,
followed by the zero-out operation and a second fit with the same root
schema and the same deterministic operator capabilities, reproduces the
identical outcome — the same schema state for every node and the same
graph input/output schemas. -/
theorem fitSchema_refit_idempotent (g : Graph) (root : Schema)
    (out : FitOutcome) (h : fitSchema g (fun _ => none) root = .ok out) :
    fitSchema g (zeroOutputSchemas g out.state) root = .ok out := by
  have hzero : zeroOutputSchemas g out.state =
      (fun _ => (none : Option (Schema × Schema))) := by
    funext i
    unfold zeroOutputSchemas
    by_cases hi : i ∈ reachList g
    · rw [if_pos hi]
    · rw [if_neg hi]
      obtain ⟨st', tr', heq, hstate, _, _, _⟩ :=
        fitSchema_ok_elim g _ root out h
      rw [hstate]
      have hni : i ∉ (pendingInit g
          (fun _ => (none : Option (Schema × Schema)))).map Prod.fst := by
        rw [pendingInit_map_fst, List.mem_filter]
        rintro ⟨hmem, _⟩
        exact hi hmem
      exact fitLoopF_frame g root _ _ _ _ _ _ heq i hni
  rw [hzero]
  exact h

/-- Witness for C6: fit, zero-out, fit on the chain fixture reproduces
the identical outcome. -/
theorem fitSchema_refit_idempotent_witness :
    fitSchema gChain (fun _ => none) rootChain
        = .ok (fitOutcomeOf gChain (fun _ => none) rootChain)
    ∧ fitSchema gChain
        (zeroOutputSchemas gChain
          (fitOutcomeOf gChain (fun _ => none) rootChain).state) rootChain
        = .ok (fitOutcomeOf gChain (fun _ => none) rootChain) :=
  ⟨rfl, fitSchema_refit_idempotent gChain rootChain _ rfl⟩

/-! ## Phase order-independence (C7) -/

theorem filterMap_congr_on {α β : Type} (l : List α) (f1 f2 : α → Option β)
    (h : ∀ a ∈ l, f1 a = f2 a) : l.filterMap f1 = l.filterMap f2 := by
  induction l with
  | nil => rfl
  | cons x rest ih =>
    rw [List.filterMap_cons, List.filterMap_cons,
      h x (List.mem_cons_self x rest),
      ih (fun a ha => h a (List.mem_cons_of_mem x ha))]

theorem combinedSchemaFor_congr (g : Graph) (root : Schema)
    (st1 st2 : FitState) (i : NodeId)
    (h : ∀ p ∈ (g.node i).parents, st1 p = st2 p) :
    combinedSchemaFor g root st1 i = combinedSchemaFor g root st2 i := by
  unfold combinedSchemaFor parentOutputSchemas
  rw [filterMap_congr_on (g.node i).parents st1 st2 h]

/-- Processing two distinct nodes that are not each other's data-parents
commutes. -/
theorem processNode_comm (g : Graph) (root : Schema) (i j : NodeId)
    (hij : i ≠ j) (hpi : i ∉ (g.node j).parents) (hpj : j ∉ (g.node i).parents)
    (st : FitState) :
    processNode g root (processNode g root st i) j
      = processNode g root (processNode g root st j) i := by
  have haux : ∀ (x y : NodeId), x ∉ (g.node y).parents →
      ∀ p ∈ (g.node y).parents, processNode g root st x p = st p := by
    intro x y hx p hp
    have hpx : ¬(p = x) := fun hc => hx (hc ▸ hp)
    simp [processNode, setNode, hpx]
  have hcj := combinedSchemaFor_congr g root (processNode g root st i) st j
    (haux i j hpi)
  have hci := combinedSchemaFor_congr g root (processNode g root st j) st i
    (haux j i hpj)
  simp only [processNode] at hcj hci
  funext a
  by_cases haj : a = j
  · have hai : ¬(a = i) := fun hc => hij (hc.symm.trans haj)
    have hji : ¬(j = i) := fun hc => hij hc.symm
    simp [processNode, setNode, haj, hai, hji, hcj]
  · by_cases hai : a = i
    · simp [processNode, setNode, haj, hai, hij, hci]
    · simp [processNode, setNode, haj, hai]

theorem nodup_phaseOf (pend : Pending)
    (hnd : (pend.map Prod.fst).Nodup) : (phaseOf pend).Nodup := by
  have h1 : phaseOf pend =
      (pend.map Prod.fst).filter (fun a => decide (a ∈ phaseOf pend)) := by
    conv_lhs => rw [phaseOf]
    exact map_fst_filter_eq pend _ _ (isEmpty_eq_mem_phase pend hnd)
  rw [h1]
  exact hnd.filter _

/-- No node of a phase is a data-parent of another node of the same
phase. -/
theorem phase_parents_disjoint (g : Graph) (pend : Pending)
    (inv : LoopInv g pend) :
    ∀ x ∈ phaseOf pend, ∀ y ∈ phaseOf pend, x ∉ (g.node y).parents := by
  intro x hx y hy hcon
  obtain ⟨ey, hey, heyfst, heynil⟩ := (mem_phaseOf pend y).mp hy
  have hxf : x ∈ pend.map Prod.fst := phaseOf_subset_fst pend x hx
  have hmem : x ∈ (g.node ey.1).parentsWithDependencies := by
    rw [heyfst]
    exact List.mem_append_left _ hcon
  have := inv.parentBlock ey hey x hmem hxf
  rw [heynil] at this
  exact absurd this (List.not_mem_nil x)

/-- Processing a phase in any order yields the same state, provided no
phase node is a data-parent of another. -/
theorem processPhase_perm (g : Graph) (root : Schema) (l1 l2 : List NodeId)
    (hp : l1.Perm l2)
    (hcomm : ∀ x ∈ l1, ∀ y ∈ l1, ∀ st : FitState,
      processNode g root (processNode g root st x) y
        = processNode g root (processNode g root st y) x)
    (st : FitState) : processPhase g root l1 st = processPhase g root l2 st := by
  unfold processPhase
  exact hp.foldl_eq' (fun x hx y hy z => hcomm x hx y hy z) st

theorem fitLoopFSched_nil (sched : List NodeId → List NodeId) (g : Graph)
    (root : Schema) (fuel : Nat) (st : FitState) (tr : List NodeId) :
    fitLoopFSched sched g root fuel [] st tr = .ok (st, tr) := by
  cases fuel <;> rfl

theorem fitLoopFSched_succ_cons (sched : List NodeId → List NodeId)
    (g : Graph) (root : Schema) (fuel : Nat) (e : NodeId × List NodeId)
    (rest : Pending) (st : FitState) (tr : List NodeId) :
    fitLoopFSched sched g root (fuel+1) (e :: rest) st tr =
      if (phaseOf (e :: rest)).isEmpty then .error .noProgress
      else
        fitLoopFSched sched g root fuel
          (nextPending (e :: rest) (phaseOf (e :: rest)))
          (processPhase g root (sched (phaseOf (e :: rest))) st)
          (tr ++ sched (phaseOf (e :: rest))) := rfl

/-- The scheduled loop agrees with the plain loop: same error, or same
final state with traces equal up to permutation. -/
theorem fitLoopFSched_agrees (sched : List NodeId → List NodeId)
    (hs : ∀ l : List NodeId, (sched l).Perm l) (g : Graph) (root : Schema) :
    ∀ (fuel : Nat) (pend : Pending) (st : FitState) (tr1 tr2 : List NodeId),
      LoopInv g pend → tr1.Perm tr2 →
      ((∃ e, fitLoopFSched sched g root fuel pend st tr1 = .error e
          ∧ fitLoopF g root fuel pend st tr2 = .error e)
       ∨ (∃ st' t1 t2,
            fitLoopFSched sched g root fuel pend st tr1 = .ok (st', t1)
            ∧ fitLoopF g root fuel pend st tr2 = .ok (st', t2)
            ∧ t1.Perm t2)) := by
  intro fuel
  induction fuel with
  | zero =>
    intro pend st tr1 tr2 _ htr
    cases pend with
    | nil =>
      right
      exact ⟨st, tr1, tr2, fitLoopFSched_nil sched g root 0 st tr1,
        fitLoopF_nil g root 0 st tr2, htr⟩
    | cons e rest => exact Or.inl ⟨.noProgress, rfl, rfl⟩
  | succ fuel ih =>
    intro pend st tr1 tr2 inv htr
    cases pend with
    | nil =>
      right
      exact ⟨st, tr1, tr2, fitLoopFSched_nil sched g root _ st tr1,
        fitLoopF_nil g root _ st tr2, htr⟩
    | cons e rest =>
      by_cases hph : (phaseOf (e :: rest)).isEmpty = true
      · left
        refine ⟨.noProgress, ?_, ?_⟩
        · rw [fitLoopFSched_succ_cons, if_pos hph]
        · rw [fitLoopF_succ_cons, if_pos hph]
      · have hdisj := phase_parents_disjoint g (e :: rest) inv
        have hmem : ∀ x ∈ sched (phaseOf (e :: rest)),
            x ∈ phaseOf (e :: rest) :=
          fun x hx => (hs (phaseOf (e :: rest))).mem_iff.mp hx
        have hproc : processPhase g root (sched (phaseOf (e :: rest))) st
            = processPhase g root (phaseOf (e :: rest)) st := by
          apply processPhase_perm g root _ _ (hs _)
          intro x hx y hy st'
          by_cases hxy : x = y
          · rw [hxy]
          · exact processNode_comm g root x y hxy
              (hdisj x (hmem x hx) y (hmem y hy))
              (hdisj y (hmem y hy) x (hmem x hx)) st'
        have htr' : (tr1 ++ sched (phaseOf (e :: rest))).Perm
            (tr2 ++ phaseOf (e :: rest)) :=
          htr.append (hs _)
        have hrec := ih (nextPending (e :: rest) (phaseOf (e :: rest)))
          (processPhase g root (phaseOf (e :: rest)) st)
          (tr1 ++ sched (phaseOf (e :: rest)))
          (tr2 ++ phaseOf (e :: rest))
          (loopInv_next g (e :: rest) inv) htr'
        rcases hrec with ⟨er, h1, h2⟩ | ⟨st', t1, t2, h1, h2, ht⟩
        · left
          refine ⟨er, ?_, ?_⟩
          · rw [fitLoopFSched_succ_cons, if_neg hph, hproc]
            exact h1
          · rw [fitLoopF_succ_cons, if_neg hph]
            exact h2
        · right
          refine ⟨st', t1, t2, ?_, ?_, ht⟩
          · rw [fitLoopFSched_succ_cons, if_neg hph, hproc]
            exact h1
          · rw [fitLoopF_succ_cons, if_neg hph]
            exact h2

/-- C7: permuting the processing order of the nodes inside each wavefront
phase changes neither any node's resulting schema state nor the graph's
input/output schemas; the processing trace changes only up to
permutation, and an aborting run aborts identically. -/
theorem fitSchema_phase_order_independent (sched : List NodeId → List NodeId)
    (hs : ∀ l : List NodeId, (sched l).Perm l) (g : Graph) (st0 : FitState)
    (root : Schema) (hwf : Wf g) :
    (∃ e, fitSchemaSched sched g st0 root = .error e
        ∧ fitSchema g st0 root = .error e)
    ∨ (∃ o1 o2, fitSchemaSched sched g st0 root = .ok o1
        ∧ fitSchema g st0 root = .ok o2
        ∧ o1.state = o2.state ∧ o1.inputSchema = o2.inputSchema
        ∧ o1.outputSchema = o2.outputSchema ∧ o1.trace.Perm o2.trace) := by
  rcases fitLoopFSched_agrees sched hs g root (pendingInit g st0).length
      (pendingInit g st0) st0 [] [] (loopInv_init g st0 hwf)
      (List.Perm.refl []) with ⟨e, h1, h2⟩ | ⟨st', t1, t2, h1, h2, ht⟩
  · left
    refine ⟨e, ?_, ?_⟩
    · unfold fitSchemaSched
      simp only []
      rw [h1]
    · unfold fitSchema
      simp only []
      rw [h2]
  · right
    refine ⟨{ state := st', trace := t1,
              inputSchema := ⟨root.columnSchemas.filter
                (fun c => decide (c.name ∈ inputColumns g))⟩,
              outputSchema := (st' g.outputNode).map Prod.snd },
            { state := st', trace := t2,
              inputSchema := ⟨root.columnSchemas.filter
                (fun c => decide (c.name ∈ inputColumns g))⟩,
              outputSchema := (st' g.outputNode).map Prod.snd },
            ?_, ?_, rfl, rfl, rfl, ht⟩
    · unfold fitSchemaSched
      simp only []
      rw [h1]
    · unfold fitSchema
      simp only []
      rw [h2]

/-- Witness for C7: processing each phase in reversed order on the chain
fixture agrees with the original order. -/
theorem fitSchema_phase_order_independent_witness :
    Wf gChain
    ∧ (∀ l : List NodeId, (List.reverse l).Perm l)
    ∧ ((∃ e, fitSchemaSched List.reverse gChain (fun _ => none) rootChain
            = .error e
          ∧ fitSchema gChain (fun _ => none) rootChain = .error e)
       ∨ (∃ o1 o2, fitSchemaSched List.reverse gChain (fun _ => none)
            rootChain = .ok o1
          ∧ fitSchema gChain (fun _ => none) rootChain = .ok o2
          ∧ o1.state = o2.state ∧ o1.inputSchema = o2.inputSchema
          ∧ o1.outputSchema = o2.outputSchema ∧ o1.trace.Perm o2.trace)) :=
  ⟨by decide, fun l => List.reverse_perm l,
    fitSchema_phase_order_independent List.reverse
      (fun l => List.reverse_perm l) gChain (fun _ => none) rootChain
      (by decide)⟩

end NVT
